import Mathlib

/-!
Verification development for the expression-reduction and proof-search core of
an early dependent-type theorem prover.  The development shallowly embeds

* the kernel normalizer (`src/kernel/normalizer.cpp`): expressions, stack
  values, the scoped memoization cache, the recursive normalizer with
  β-reduction, δ-unfolding, depth cap and interruption, reification, and the
  convertibility test; and

* the backward-chaining tactic (`src/library/tactic/backward/backward_chaining.cpp`):
  the proof-state machine with choice points, lemma trial, backtracking and the
  leaf tactic.

Machine integers are mapped to `Nat`, fallible C++ paths to an explicit error
type, and the mutable fields `m_ctx` / `m_cache` of `normalizer::imp` to an
explicitly threaded state record.  The C++ recursion is genuinely partial, so
every recursive function additionally consumes fuel; running out of fuel is a
distinct error (`outOfFuel`) that corresponds to no behaviour of the C++ code
and appears only negatively in the theorems.  The recursion-depth counter
`m_depth` is modelled separately and faithfully by the `d` argument, so the
`DepthExceeded` error of the source is reproduced exactly.
-/

/-- Built-in literal payloads of `Value` expressions.  Modelled from the spec:
the concrete value objects (booleans, integers, the boolean type) live in
`builtin.cpp`, which is not among the provided sources. -/
inductive PValue where
  | boolVal (b : Bool)
  | numVal (n : Int)
  | boolType
  deriving DecidableEq

/-- Expressions of the kernel (`expr` in the source): de Bruijn variables,
constants, universes, built-in values, n-ary application (head plus at least
one argument; the source stores the head as `arg(a, 0)`), propositional
equality, binders and let.  The expression module itself is external to the
provided sources; the shape is modelled from the spec (§3 data model). -/
inductive Expr where
  | var (idx : Nat)
  | const (n : String)
  | type (lvl : Nat)
  | value (v : PValue)
  | app (f : Expr) (args : List Expr)
  | eq (lhs rhs : Expr)
  | lam (name : String) (dom body : Expr)
  | pi (name : String) (dom body : Expr)
  | letE (name : String) (val body : Expr)

/-- Decidable structural equality for `Expr` (the `==` operator of the
expression module; also stands in for pointer equality on a hash-consed DAG). -/
def Expr.decEq : (a b : Expr) → Decidable (a = b)
  | .var i, .var j =>
    match decEqOf i j with
    | .isTrue h => .isTrue (by rw [h])
    | .isFalse h => .isFalse (by intro hc; cases hc; exact h rfl)
  | .const a, .const b =>
    match decEqOf a b with
    | .isTrue h => .isTrue (by rw [h])
    | .isFalse h => .isFalse (by intro hc; cases hc; exact h rfl)
  | .type a, .type b =>
    match decEqOf a b with
    | .isTrue h => .isTrue (by rw [h])
    | .isFalse h => .isFalse (by intro hc; cases hc; exact h rfl)
  | .value a, .value b =>
    match decEqOf a b with
    | .isTrue h => .isTrue (by rw [h])
    | .isFalse h => .isFalse (by intro hc; cases hc; exact h rfl)
  | .app f as, .app g bs =>
    match Expr.decEq f g, goList as bs with
    | .isTrue h1, .isTrue h2 => .isTrue (by rw [h1, h2])
    | .isFalse h1, _ => .isFalse (by intro hc; cases hc; exact h1 rfl)
    | _, .isFalse h2 => .isFalse (by intro hc; cases hc; exact h2 rfl)
  | .eq l1 r1, .eq l2 r2 =>
    match Expr.decEq l1 l2, Expr.decEq r1 r2 with
    | .isTrue h1, .isTrue h2 => .isTrue (by rw [h1, h2])
    | .isFalse h1, _ => .isFalse (by intro hc; cases hc; exact h1 rfl)
    | _, .isFalse h2 => .isFalse (by intro hc; cases hc; exact h2 rfl)
  | .lam n1 d1 b1, .lam n2 d2 b2 =>
    match decEqOf n1 n2, Expr.decEq d1 d2, Expr.decEq b1 b2 with
    | .isTrue h0, .isTrue h1, .isTrue h2 => .isTrue (by rw [h0, h1, h2])
    | .isFalse h0, _, _ => .isFalse (by intro hc; cases hc; exact h0 rfl)
    | _, .isFalse h1, _ => .isFalse (by intro hc; cases hc; exact h1 rfl)
    | _, _, .isFalse h2 => .isFalse (by intro hc; cases hc; exact h2 rfl)
  | .pi n1 d1 b1, .pi n2 d2 b2 =>
    match decEqOf n1 n2, Expr.decEq d1 d2, Expr.decEq b1 b2 with
    | .isTrue h0, .isTrue h1, .isTrue h2 => .isTrue (by rw [h0, h1, h2])
    | .isFalse h0, _, _ => .isFalse (by intro hc; cases hc; exact h0 rfl)
    | _, .isFalse h1, _ => .isFalse (by intro hc; cases hc; exact h1 rfl)
    | _, _, .isFalse h2 => .isFalse (by intro hc; cases hc; exact h2 rfl)
  | .letE n1 d1 b1, .letE n2 d2 b2 =>
    match decEqOf n1 n2, Expr.decEq d1 d2, Expr.decEq b1 b2 with
    | .isTrue h0, .isTrue h1, .isTrue h2 => .isTrue (by rw [h0, h1, h2])
    | .isFalse h0, _, _ => .isFalse (by intro hc; cases hc; exact h0 rfl)
    | _, .isFalse h1, _ => .isFalse (by intro hc; cases hc; exact h1 rfl)
    | _, _, .isFalse h2 => .isFalse (by intro hc; cases hc; exact h2 rfl)
  | .var _, .const _ => .isFalse (by intro h; cases h)
  | .var _, .type _ => .isFalse (by intro h; cases h)
  | .var _, .value _ => .isFalse (by intro h; cases h)
  | .var _, .app _ _ => .isFalse (by intro h; cases h)
  | .var _, .eq _ _ => .isFalse (by intro h; cases h)
  | .var _, .lam _ _ _ => .isFalse (by intro h; cases h)
  | .var _, .pi _ _ _ => .isFalse (by intro h; cases h)
  | .var _, .letE _ _ _ => .isFalse (by intro h; cases h)
  | .const _, .var _ => .isFalse (by intro h; cases h)
  | .const _, .type _ => .isFalse (by intro h; cases h)
  | .const _, .value _ => .isFalse (by intro h; cases h)
  | .const _, .app _ _ => .isFalse (by intro h; cases h)
  | .const _, .eq _ _ => .isFalse (by intro h; cases h)
  | .const _, .lam _ _ _ => .isFalse (by intro h; cases h)
  | .const _, .pi _ _ _ => .isFalse (by intro h; cases h)
  | .const _, .letE _ _ _ => .isFalse (by intro h; cases h)
  | .type _, .var _ => .isFalse (by intro h; cases h)
  | .type _, .const _ => .isFalse (by intro h; cases h)
  | .type _, .value _ => .isFalse (by intro h; cases h)
  | .type _, .app _ _ => .isFalse (by intro h; cases h)
  | .type _, .eq _ _ => .isFalse (by intro h; cases h)
  | .type _, .lam _ _ _ => .isFalse (by intro h; cases h)
  | .type _, .pi _ _ _ => .isFalse (by intro h; cases h)
  | .type _, .letE _ _ _ => .isFalse (by intro h; cases h)
  | .value _, .var _ => .isFalse (by intro h; cases h)
  | .value _, .const _ => .isFalse (by intro h; cases h)
  | .value _, .type _ => .isFalse (by intro h; cases h)
  | .value _, .app _ _ => .isFalse (by intro h; cases h)
  | .value _, .eq _ _ => .isFalse (by intro h; cases h)
  | .value _, .lam _ _ _ => .isFalse (by intro h; cases h)
  | .value _, .pi _ _ _ => .isFalse (by intro h; cases h)
  | .value _, .letE _ _ _ => .isFalse (by intro h; cases h)
  | .app _ _, .var _ => .isFalse (by intro h; cases h)
  | .app _ _, .const _ => .isFalse (by intro h; cases h)
  | .app _ _, .type _ => .isFalse (by intro h; cases h)
  | .app _ _, .value _ => .isFalse (by intro h; cases h)
  | .app _ _, .eq _ _ => .isFalse (by intro h; cases h)
  | .app _ _, .lam _ _ _ => .isFalse (by intro h; cases h)
  | .app _ _, .pi _ _ _ => .isFalse (by intro h; cases h)
  | .app _ _, .letE _ _ _ => .isFalse (by intro h; cases h)
  | .eq _ _, .var _ => .isFalse (by intro h; cases h)
  | .eq _ _, .const _ => .isFalse (by intro h; cases h)
  | .eq _ _, .type _ => .isFalse (by intro h; cases h)
  | .eq _ _, .value _ => .isFalse (by intro h; cases h)
  | .eq _ _, .app _ _ => .isFalse (by intro h; cases h)
  | .eq _ _, .lam _ _ _ => .isFalse (by intro h; cases h)
  | .eq _ _, .pi _ _ _ => .isFalse (by intro h; cases h)
  | .eq _ _, .letE _ _ _ => .isFalse (by intro h; cases h)
  | .lam _ _ _, .var _ => .isFalse (by intro h; cases h)
  | .lam _ _ _, .const _ => .isFalse (by intro h; cases h)
  | .lam _ _ _, .type _ => .isFalse (by intro h; cases h)
  | .lam _ _ _, .value _ => .isFalse (by intro h; cases h)
  | .lam _ _ _, .app _ _ => .isFalse (by intro h; cases h)
  | .lam _ _ _, .eq _ _ => .isFalse (by intro h; cases h)
  | .lam _ _ _, .pi _ _ _ => .isFalse (by intro h; cases h)
  | .lam _ _ _, .letE _ _ _ => .isFalse (by intro h; cases h)
  | .pi _ _ _, .var _ => .isFalse (by intro h; cases h)
  | .pi _ _ _, .const _ => .isFalse (by intro h; cases h)
  | .pi _ _ _, .type _ => .isFalse (by intro h; cases h)
  | .pi _ _ _, .value _ => .isFalse (by intro h; cases h)
  | .pi _ _ _, .app _ _ => .isFalse (by intro h; cases h)
  | .pi _ _ _, .eq _ _ => .isFalse (by intro h; cases h)
  | .pi _ _ _, .lam _ _ _ => .isFalse (by intro h; cases h)
  | .pi _ _ _, .letE _ _ _ => .isFalse (by intro h; cases h)
  | .letE _ _ _, .var _ => .isFalse (by intro h; cases h)
  | .letE _ _ _, .const _ => .isFalse (by intro h; cases h)
  | .letE _ _ _, .type _ => .isFalse (by intro h; cases h)
  | .letE _ _ _, .value _ => .isFalse (by intro h; cases h)
  | .letE _ _ _, .app _ _ => .isFalse (by intro h; cases h)
  | .letE _ _ _, .eq _ _ => .isFalse (by intro h; cases h)
  | .letE _ _ _, .lam _ _ _ => .isFalse (by intro h; cases h)
  | .letE _ _ _, .pi _ _ _ => .isFalse (by intro h; cases h)
where
  decEqOf {α : Type} [inst : DecidableEq α] (a b : α) : Decidable (a = b) := inst a b
  goList : (as bs : List Expr) → Decidable (as = bs)
  | [], [] => .isTrue rfl
  | a :: as, b :: bs =>
    match Expr.decEq a b, goList as bs with
    | .isTrue h1, .isTrue h2 => .isTrue (by rw [h1, h2])
    | .isFalse h1, _ => .isFalse (by intro hc; cases hc; exact h1 rfl)
    | _, .isFalse h2 => .isFalse (by intro hc; cases hc; exact h2 rfl)
  | [], _ :: _ => .isFalse (by intro h; cases h)
  | _ :: _, [] => .isFalse (by intro h; cases h)

instance : DecidableEq Expr := Expr.decEq

/-- Stack values of the normalizer (`svalue`, normalizer.cpp lines 36-56):
already-normalized expressions, closures (an un-entered λ with the value stack
captured at construction), and bounded-variable markers. -/
inductive SValue where
  | expr (e : Expr)
  | closure (lam : Expr) (stk : List SValue)
  | bvar (k : Nat)

/-- Decidable structural equality for `SValue`. -/
def SValue.decEq : (a b : SValue) → Decidable (a = b)
  | .expr e1, .expr e2 =>
    match Expr.decEq e1 e2 with
    | .isTrue h => .isTrue (by rw [h])
    | .isFalse h => .isFalse (by intro hc; cases hc; exact h rfl)
  | .bvar j1, .bvar j2 =>
    match Nat.decEq j1 j2 with
    | .isTrue h => .isTrue (by rw [h])
    | .isFalse h => .isFalse (by intro hc; cases hc; exact h rfl)
  | .closure l1 s1, .closure l2 s2 =>
    match Expr.decEq l1 l2, goList s1 s2 with
    | .isTrue h1, .isTrue h2 => .isTrue (by rw [h1, h2])
    | .isFalse h1, _ => .isFalse (by intro hc; cases hc; exact h1 rfl)
    | _, .isFalse h2 => .isFalse (by intro hc; cases hc; exact h2 rfl)
  | .expr _, .closure _ _ => .isFalse (by intro h; cases h)
  | .expr _, .bvar _ => .isFalse (by intro h; cases h)
  | .closure _ _, .expr _ => .isFalse (by intro h; cases h)
  | .closure _ _, .bvar _ => .isFalse (by intro h; cases h)
  | .bvar _, .expr _ => .isFalse (by intro h; cases h)
  | .bvar _, .closure _ _ => .isFalse (by intro h; cases h)
where
  goList : (as bs : List SValue) → Decidable (as = bs)
  | [], [] => .isTrue rfl
  | a :: as, b :: bs =>
    match SValue.decEq a b, goList as bs with
    | .isTrue h1, .isTrue h2 => .isTrue (by rw [h1, h2])
    | .isFalse h1, _ => .isFalse (by intro hc; cases hc; exact h1 rfl)
    | _, .isFalse h2 => .isFalse (by intro hc; cases hc; exact h2 rfl)
  | [], _ :: _ => .isFalse (by intro h; cases h)
  | _ :: _, [] => .isFalse (by intro h; cases h)

instance : DecidableEq SValue := SValue.decEq

namespace KN

/-- Entry of the typing context: display name, type, optional body
(`context_entry` of the kernel; consumed through `lookup_ext`). -/
structure ContextEntry where
  name : String
  type : Expr
  body : Option Expr
  deriving DecidableEq

/-- Typing context: ordered list of entries, innermost (most recently added)
entry first, looked up by de Bruijn offset. -/
abbrev Context := List ContextEntry

/-- `lookup_ext(ctx, j)`: the entry at offset `j` together with the context
prefix ending just below it.  Returns `none` where the kernel context module
would raise an unknown-free-variable failure. -/
def lookupExt : Context → Nat → Option (ContextEntry × Context)
  | [], _ => none
  | e :: c, 0 => some (e, c)
  | _ :: c, j+1 => lookupExt c j

/-- Environment object for a constant name (`object` of the kernel): a
definition with an opacity flag and a defining value, or any other kind of
object (axiom, variable declaration, theorem marked opaque, ...). -/
inductive EnvObj where
  | defn (opq : Bool) (value : Expr)
  | other
  deriving DecidableEq

/-- The read-only environment consumed by the normalizer (spec §6): constant
lookup, the universe partial order `is_ge`, and the computation rules attached
to built-in `Value`s.  Modelled from the spec: `environment.cpp` and
`builtin.cpp` are not among the provided sources.  `getObject` returns `none`
for names on which `env.get_object` would raise; `valNorm v args` is the
virtual `value::normalize` call, receiving the whole reified argument buffer
(head included, as in the source) and returning `none` when no rule applies. -/
structure Env where
  getObject : String → Option EnvObj
  isGe : Nat → Nat → Bool
  valNorm : PValue → List Expr → Option Expr

/-- Errors of the normalizer: the kernel exception (carrying its fixed
message), cooperative interruption, an unbound free variable or unknown
constant (raised by the context / environment accessors), and exhaustion of
the embedding's fuel (an artifact of totalization, not a source behaviour). -/
inductive NormError where
  | kernelExc (msg : String)
  | interrupted
  | freeVar
  | unknownConst (n : String)
  | outOfFuel
  deriving DecidableEq

/-- The fixed message of the depth-cap kernel exception (normalizer.cpp line 133). -/
def depthExceededMsg : String := "normalizer maximum recursion depth exceeded"

/-- The mutable state of `normalizer::imp`: the ambient context `m_ctx`, the
scoped memoization cache `m_cache` (a stack of frames, innermost frame first;
`find` scans all frames, `insert` writes the innermost frame, a scope pushes
and pops one frame), and the interruption flag. -/
structure NormState where
  ctx : Context
  cache : List (List (Expr × SValue))
  interrupted : Bool
  deriving DecidableEq

/-- Lookup in one cache frame (most recent insertion first, so an insertion
shadows an older one exactly as `scoped_map::insert` overwrites). -/
def assocFind : List (Expr × SValue) → Expr → Option SValue
  | [], _ => none
  | (key, v) :: rest, e => if key = e then some v else assocFind rest e

/-- Lookup across all cache frames, innermost first. -/
def cacheFind : List (List (Expr × SValue)) → Expr → Option SValue
  | [], _ => none
  | f :: fs, e =>
    match assocFind f e with
    | some v => some v
    | none => cacheFind fs e

/-- Insert into the innermost cache frame (`scoped_map::insert`). -/
def cacheInsert : List (List (Expr × SValue)) → Expr → SValue → List (List (Expr × SValue))
  | [], e, v => [[(e, v)]]
  | f :: fs, e, v => ((e, v) :: f) :: fs

/-- `cache::mk_scope` entry: push a fresh frame. -/
def pushScope (st : NormState) : NormState := { st with cache := [] :: st.cache }

/-- `cache::mk_scope` exit: drop the innermost frame, undoing its insertions. -/
def popScope (st : NormState) : NormState := { st with cache := st.cache.tail }

/-- Configuration of one normalizer instance: the environment, the maximum
recursion depth `m_max_depth`, and the sharing predicate.  `shared` models
`is_shared` of the expression DAG — a memory-layout property of the arena
(spec §9), hence a parameter of the embedding rather than a structural
function of the tree. -/
structure NormCfg where
  env : Env
  shared : Expr → Bool
  maxDepth : Nat

/-- `abst_name` accessor (defined for `Lambda` and `Pi`). -/
def abstName : Expr → String
  | .lam n _ _ => n
  | .pi n _ _ => n
  | _ => ""

/-- `abst_domain` accessor (defined for `Lambda` and `Pi`). -/
def abstDomain : Expr → Expr
  | .lam _ d _ => d
  | .pi _ d _ => d
  | _ => .var 0

/-- `abst_body` accessor (defined for `Lambda` and `Pi`). -/
def abstBody : Expr → Expr
  | .lam _ _ b => b
  | .pi _ _ b => b
  | _ => .var 0

/-- `is_value` of the expression module. -/
def isValueE : Expr → Bool
  | .value _ => true
  | _ => false

/-- `mk_bool_value` of the built-in module (modelled from the spec). -/
def mkBoolValue (b : Bool) : Expr := .value (.boolVal b)

/-- `mk_bool_type` of the built-in module (modelled from the spec: the boolean
type is itself a built-in `Value`). -/
def mkBoolType : Expr := .value .boolType

/-- `mk_app` over a buffer whose first element is the head (modelled from the
spec: `App(f, a₀…aₙ₋₁)` with `num_args ≥ 1`; the buffer handed to it in the
normalizer is never empty). -/
def mkApp : List Expr → Expr
  | f :: args => .app f args
  | [] => .var 0

/-- `is_type` of the expression module. -/
def isType : Expr → Bool
  | .type _ => true
  | _ => false

/-- `ty_level` accessor (defined for `Type` nodes). -/
def tyLevel : Expr → Nat
  | .type l => l
  | _ => 0

/-- Result of a stateful normalizer computation: the state after the call (the
C++ object survives an exception, with its context restored by the
`save_context` destructors), together with either a value or an error. -/
abbrev NRes (α : Type) := NormState × Except NormError α

mutual

/-- `normalizer::imp::normalize(a, s, k)` (normalizer.cpp lines 129-234).
`fuel` is the totality gas; `s` the value stack; `k` the number of binders in
scope above the ambient context; `d` the recursion depth `m_depth` at the call
site (the body works at `d + 1`, the `flet` increment).  The cache is consulted
and updated only for shared expressions, exactly as in the source. -/
def normalize (cfg : NormCfg) : Nat → Expr → List SValue → Nat → Nat → NormState → NRes SValue
  | 0, _, _, _, _, st => (st, .error .outOfFuel)
  | fuel+1, a, s, k, d, st =>
    if st.interrupted then (st, .error .interrupted)
    else if cfg.maxDepth < d + 1 then (st, .error (.kernelExc depthExceededMsg))
    else
      match (if cfg.shared a then cacheFind st.cache a else none) with
      | some v => (st, .ok v)
      | none =>
        let res : NRes SValue :=
          match a with
          | .var i => lookup cfg fuel s i k (d+1) st
          | .const n =>
            match cfg.env.getObject n with
            | none => (st, .error (.unknownConst n))
            | some (.defn opq v) =>
              if opq then (st, .ok (.expr a))
              else normalize cfg fuel v [] 0 (d+1) st
            | some .other => (st, .ok (.expr a))
          | .type _ => (st, .ok (.expr a))
          | .value _ => (st, .ok (.expr a))
          | .app f args =>
            match normalize cfg fuel f s k (d+1) st with
            | (st1, .error er) => (st1, .error er)
            | (st1, .ok fv) => normApp cfg fuel fv args s k (d+1) st1
          | .eq l r =>
            match normalize cfg fuel l s k (d+1) st with
            | (st1, .error er) => (st1, .error er)
            | (st1, .ok vl) =>
              match reify cfg fuel vl k (d+1) st1 with
              | (st2, .error er) => (st2, .error er)
              | (st2, .ok el) =>
                match normalize cfg fuel r s k (d+1) st2 with
                | (st3, .error er) => (st3, .error er)
                | (st3, .ok vr) =>
                  match reify cfg fuel vr k (d+1) st3 with
                  | (st4, .error er) => (st4, .error er)
                  | (st4, .ok er2) =>
                    if el = er2 then (st4, .ok (.expr (mkBoolValue true)))
                    else if isValueE el && isValueE er2 then (st4, .ok (.expr (mkBoolValue false)))
                    else (st4, .ok (.expr (.eq el er2)))
          | .lam _ _ _ => (st, .ok (.closure a s))
          | .pi nm dom body =>
            match normalize cfg fuel dom s k (d+1) st with
            | (st1, .error er) => (st1, .error er)
            | (st1, .ok vd) =>
              match reify cfg fuel vd k (d+1) st1 with
              | (st2, .error er) => (st2, .error er)
              | (st2, .ok td) =>
                match normalize cfg fuel body (.bvar k :: s) (k+1) (d+1) (pushScope st2) with
                | (st3, .error er) => (popScope st3, .error er)
                | (st3, .ok vb) =>
                  match reify cfg fuel vb (k+1) (d+1) st3 with
                  | (st4, .error er) => (popScope st4, .error er)
                  | (st4, .ok tb) => (popScope st4, .ok (.expr (.pi nm td tb)))
          | .letE _ v body =>
            match normalize cfg fuel v s k (d+1) st with
            | (st1, .error er) => (st1, .error er)
            | (st1, .ok vv) =>
              match normalize cfg fuel body (vv :: s) (k+1) (d+1) (pushScope st1) with
              | (st2, r) => (popScope st2, r)
        match res with
        | (st9, .ok r) =>
          (if cfg.shared a then { st9 with cache := cacheInsert st9.cache a r } else st9, .ok r)
        | (st9, .error er) => (st9, .error er)
termination_by structural fuel _ _ _ _ _ => fuel

/-- The argument loop of the `App` case (normalizer.cpp lines 160-196): β-steps
while the head is a closure (each under a fresh cache scope), otherwise
reification of head and remaining arguments followed by the built-in `Value`
computation rule or reconstruction of the application.  `d` is the depth at
which the loop runs (the `App` node's incremented depth). -/
def normApp (cfg : NormCfg) : Nat → SValue → List Expr → List SValue → Nat → Nat → NormState → NRes SValue
  | 0, _, _, _, _, _, st => (st, .error .outOfFuel)
  | fuel+1, f, args, s, k, d, st =>
    match f, args with
    | .closure lm stk, a :: rest =>
      match normalize cfg fuel a s k d (pushScope st) with
      | (st1, .error er) => (popScope st1, .error er)
      | (st1, .ok v) =>
        match normalize cfg fuel (abstBody lm) (v :: stk) k d st1 with
        | (st2, .error er) => (popScope st2, .error er)
        | (st2, .ok f2) =>
          match rest with
          | [] => (popScope st2, .ok f2)
          | _ :: _ => normApp cfg fuel f2 rest s k d (popScope st2)
    | .closure _ _, [] => (st, .ok f)
    | _, _ =>
      match reify cfg fuel f k d st with
      | (st1, .error er) => (st1, .error er)
      | (st1, .ok nf) =>
        match normReifyArgs cfg fuel args s k d st1 with
        | (st2, .error er) => (st2, .error er)
        | (st2, .ok nargs) =>
          match nf with
          | .value pv =>
            match cfg.env.valNorm pv (nf :: nargs) with
            | some m => normalize cfg fuel m s k d st2
            | none => (st2, .ok (.expr (mkApp (nf :: nargs))))
          | _ => (st2, .ok (.expr (mkApp (nf :: nargs))))
termination_by structural fuel _ _ _ _ _ _ => fuel

/-- The reification loop over the remaining arguments of an application
(normalizer.cpp lines 182-183): each argument is normalized and immediately
reified, left to right. -/
def normReifyArgs (cfg : NormCfg) : Nat → List Expr → List SValue → Nat → Nat → NormState → NRes (List Expr)
  | 0, _, _, _, _, st => (st, .error .outOfFuel)
  | _+1, [], _, _, _, st => (st, .ok [])
  | fuel+1, a :: rest, s, k, d, st =>
    match normalize cfg fuel a s k d st with
    | (st1, .error er) => (st1, .error er)
    | (st1, .ok v) =>
      match reify cfg fuel v k d st1 with
      | (st2, .error er) => (st2, .error er)
      | (st2, .ok ea) =>
        match normReifyArgs cfg fuel rest s k d st2 with
        | (st3, .error er) => (st3, .error er)
        | (st3, .ok es) => (st3, .ok (ea :: es))
termination_by structural fuel _ _ _ _ _ => fuel

/-- `normalizer::imp::reify(v, k)` together with `reify_closure`
(normalizer.cpp lines 110-126): expressions are returned verbatim, a bounded
variable of level `j` becomes `Var(k - j - 1)`, and a closure is converted by
normalizing its domain and its body under a fresh bounded variable. -/
def reify (cfg : NormCfg) : Nat → SValue → Nat → Nat → NormState → NRes Expr
  | 0, _, _, _, st => (st, .error .outOfFuel)
  | fuel+1, v, k, d, st =>
    match v with
    | .expr e => (st, .ok e)
    | .bvar j => (st, .ok (.var (k - j - 1)))
    | .closure lm stk =>
      match normalize cfg fuel (abstDomain lm) stk k d st with
      | (st1, .error er) => (st1, .error er)
      | (st1, .ok vd) =>
        match reify cfg fuel vd k d st1 with
        | (st2, .error er) => (st2, .error er)
        | (st2, .ok td) =>
          match normalize cfg fuel (abstBody lm) (.bvar k :: stk) (k+1) d st2 with
          | (st3, .error er) => (st3, .error er)
          | (st3, .ok vb) =>
            match reify cfg fuel vb (k+1) d st3 with
            | (st4, .error er) => (st4, .error er)
            | (st4, .ok tb) => (st4, .ok (.lam (abstName lm) td tb))
termination_by structural fuel _ _ _ _ => fuel

/-- `normalizer::imp::lookup(s, i, k)` (normalizer.cpp lines 87-107): walk the
value stack; once it is exhausted, consult the ambient context through
`lookup_ext`.  A context entry with a body is normalized in its own context
prefix under a `save_context` scope (which clears the cache on entry and
restores only the context on every exit path); a bodiless entry yields a
bounded-variable marker at the level of its prefix.  The binder-count argument
is unused in the context branch — the source shadows it with the prefix size. -/
def lookup (cfg : NormCfg) : Nat → List SValue → Nat → Nat → Nat → NormState → NRes SValue
  | 0, _, _, _, _, st => (st, .error .outOfFuel)
  | _+1, v :: _, 0, _, _, st => (st, .ok v)
  | fuel+1, _ :: rest, i+1, k, d, st => lookup cfg fuel rest i k d st
  | fuel+1, [], j, _, d, st =>
    match lookupExt st.ctx j with
    | none => (st, .error .freeVar)
    | some (entry, entryC) =>
      match entry.body with
      | none => (st, .ok (.bvar entryC.length))
      | some b =>
        match normalize cfg fuel b [] entryC.length d { st with ctx := entryC, cache := [] } with
        | (st1, .error er) => ({ st1 with ctx := st.ctx }, .error er)
        | (st1, .ok v) =>
          match reify cfg fuel v entryC.length d st1 with
          | (st2, .error er) => ({ st2 with ctx := st.ctx }, .error er)
          | (st2, .ok e2) => ({ st2 with ctx := st.ctx }, .ok (.expr e2))
termination_by structural fuel _ _ _ _ _ => fuel

end

/-- `set_ctx` (normalizer.cpp lines 261-266): install a new ambient context and
flush the cache when it differs from the current one. -/
def setCtx (ctx : Context) (st : NormState) : NormState :=
  if ctx = st.ctx then st else { st with ctx := ctx, cache := [] }

/-- `normalizer::imp::operator()(e, ctx)` (normalizer.cpp lines 276-280):
install the context, then normalize under an empty value stack at the
context's binder count and reify the result. -/
def normalizeTop (cfg : NormCfg) (fuel : Nat) (e : Expr) (ctx : Context) (st : NormState) : NRes Expr :=
  let st1 := setCtx ctx st
  let k := st1.ctx.length
  match normalize cfg fuel e [] k 0 st1 with
  | (st2, .error er) => (st2, .error er)
  | (st2, .ok v) => reify cfg fuel v k 0 st2

/-- The telescope loop inside `is_convertible_core` (normalizer.cpp lines
240-257): universe cumulativity, the small boolean type, and descent through
Π types with syntactically equal domains. -/
def convLoop (env : Env) : Expr → Expr → Bool
  | .pi _ d1 b1, .pi _ d2 b2 => if d1 = d2 then convLoop env b1 b2 else false
  | e, g =>
    (isType e && isType g && env.isGe (tyLevel e) (tyLevel g)) ||
    (isType e && g = mkBoolType)

/-- `normalizer::imp::is_convertible_core(expected, given)` (normalizer.cpp
lines 236-259). -/
def isConvertibleCore (env : Env) (expected given : Expr) : Bool :=
  if expected = given then true else convLoop env expected given

/-- `normalizer::imp::is_convertible(expected, given, ctx)` (normalizer.cpp
lines 282-290): the structural test, and on failure normalization of both
sides followed by the structural test again. -/
def isConvertible (cfg : NormCfg) (fuel : Nat) (expected given : Expr) (ctx : Context) (st : NormState) : NRes Bool :=
  if isConvertibleCore cfg.env expected given then (st, .ok true)
  else
    let st1 := setCtx ctx st
    let k := st1.ctx.length
    match normalize cfg fuel expected [] k 0 st1 with
    | (st2, .error er) => (st2, .error er)
    | (st2, .ok ve) =>
      match reify cfg fuel ve k 0 st2 with
      | (st3, .error er) => (st3, .error er)
      | (st3, .ok en) =>
        match normalize cfg fuel given [] k 0 st3 with
        | (st4, .error er) => (st4, .error er)
        | (st4, .ok vg) =>
          match reify cfg fuel vg k 0 st4 with
          | (st5, .error er) => (st5, .error er)
          | (st5, .ok gn) => (st5, .ok (isConvertibleCore cfg.env en gn))

end KN

namespace BC

/-- Proof state consumed from the tactic layer (backward_chaining.cpp): the
ordered goal list and the metavariable context.  A goal is represented by its
target type; the metavariable context is opaque to the engine and modelled by
a token.  Modelled from the spec (§3): `tactic_state` is external to the
provided sources, and only `goals()`, `mctx()`, `get_main_goal_decl()` and
`set_goals` are consumed. -/
structure TacticState where
  goals : List Expr
  mctx : Nat
  deriving DecidableEq

/-- `set_goals(state, goals)`: replace the goal list. -/
def setGoals (s : TacticState) (gs : List Expr) : TacticState := { s with goals := gs }

/-- An entry of the backward-lemma index, identified by an opaque token;
`backward_lemma::to_expr` materializes it through the configuration. -/
abbrev BackwardLemma := Nat

/-- The external collaborators and options of one `back_chaining_fn` instance:
`use_instances` and `max_depth` (`back_chaining.max_depth`, the bound on the
choice stack), weak-head normalization and `head_index` of the type context,
the lemma index `find`, lemma materialization, the external `apply` operator
(receiving the type-context metavariable context, `use_instances`, the lemma
term and the state), and the user leaf tactic.  All of these live outside the
provided sources and are modelled from the spec (§6) as opaque parameters. -/
structure BCConfig where
  useInstances : Bool
  maxDepth : Nat
  whnf : Expr → Expr
  headIndex : Expr → Nat
  findLemmas : Nat → List BackwardLemma
  blemmaToExpr : BackwardLemma → Expr
  applyFn : Nat → Bool → Expr → TacticState → Option TacticState
  leafTactic : TacticState → Option TacticState

/-- A choice point (backward_chaining.cpp lines 37-42): the state saved before
the successful `apply`, and the lemmas not yet tried. -/
structure Choice where
  state : TacticState
  lemmas : List BackwardLemma
  deriving DecidableEq

/-- The mutable engine state: `m_state`, the choice stack `m_choices`
(innermost choice point first; the C++ buffer keeps it at the back), and the
metavariable context currently installed in the type context via `set_mctx`. -/
structure BCState where
  state : TacticState
  choices : List Choice
  tcxMctx : Nat
  deriving DecidableEq

/-- `back_chaining_fn::invoke_leaf_tactic` (lines 63-74): run the leaf tactic
on a copy of the state focused on the main goal only; on success replace the
engine state by the returned state with its goals replaced by the remaining
original goals; on failure leave the engine state unchanged.  (The source
asserts that the goal list is non-empty; the empty case is unreachable.) -/
def invokeLeafTactic (cfg : BCConfig) (s : BCState) : Bool × BCState :=
  match s.state.goals with
  | [] => (false, s)
  | g :: rest =>
    let tmp := setGoals s.state [g]
    match cfg.leafTactic tmp with
    | some ns => (true, { s with state := setGoals ns rest })
    | none => (false, s)

/-- The loop of `back_chaining_fn::try_lemmas` (lines 76-94): try each lemma in
order through `apply`; on the first success, push a choice point when
alternatives remain and adopt the new state.  `saved` is `m_state`, `choices`
is `m_choices`, `tcx` the metavariable context installed by `set_mctx`. -/
def tryLemmasLoop (cfg : BCConfig) (saved : TacticState) (choices : List Choice) (tcx : Nat) : List BackwardLemma → Bool × BCState
  | [] => (false, ⟨saved, choices, tcx⟩)
  | bl :: rest =>
    match cfg.applyFn tcx cfg.useInstances (cfg.blemmaToExpr bl) saved with
    | some ns => (true, ⟨ns, (if rest.isEmpty then choices else ⟨saved, rest⟩ :: choices), tcx⟩)
    | none => tryLemmasLoop cfg saved choices tcx rest

/-- `back_chaining_fn::try_lemmas` (lines 76-94): synchronize the type
context's metavariable context with the state, then run the trial loop. -/
def tryLemmas (cfg : BCConfig) (lemmas : List BackwardLemma) (s : BCState) : Bool × BCState :=
  tryLemmasLoop cfg s.state s.choices s.state.mctx lemmas

/-- The loop of `back_chaining_fn::backtrack` (lines 96-107): pop choice
points, restoring the saved state, until a remaining-lemma list succeeds;
report failure when the stack empties. -/
def backtrackLoop (cfg : BCConfig) (cur : TacticState) (tcx : Nat) : List Choice → Bool × BCState
  | [] => (false, ⟨cur, [], tcx⟩)
  | c :: rest =>
    match tryLemmasLoop cfg c.state rest c.state.mctx c.lemmas with
    | (true, s2) => (true, s2)
    | (false, s2) => backtrackLoop cfg s2.state s2.tcxMctx rest

/-- `back_chaining_fn::backtrack` (lines 96-107). -/
def backtrack (cfg : BCConfig) (s : BCState) : Bool × BCState :=
  backtrackLoop cfg s.state s.tcxMctx s.choices

/-- Result of one iteration of the main loop. -/
inductive StepRes where
  | done (r : Bool) (s : BCState)
  | next (s : BCState)
  deriving DecidableEq

/-- One iteration of the labelled loop in `back_chaining_fn::run` (lines
109-138): succeed on an empty goal list; at or above the choice-stack bound
only backtrack; otherwise compute the whnf of the main goal's target, query
the lemma index by its head, and either try the candidate lemmas or invoke the
leaf tactic, backtracking on failure. -/
def runStep (cfg : BCConfig) (s : BCState) : StepRes :=
  match s.state.goals with
  | [] => .done true s
  | g :: _ =>
    if cfg.maxDepth ≤ s.choices.length then
      match backtrack cfg s with
      | (false, s2) => .done false s2
      | (true, s2) => .next s2
    else
      let target := cfg.whnf g
      let lemmas := cfg.findLemmas (cfg.headIndex target)
      if lemmas.isEmpty then
        match invokeLeafTactic cfg s with
        | (true, s2) => .next s2
        | (false, s2) =>
          match backtrack cfg s2 with
          | (false, s3) => .done false s3
          | (true, s3) => .next s3
      else
        match tryLemmas cfg lemmas s with
        | (true, s2) => .next s2
        | (false, s2) =>
          match backtrack cfg s2 with
          | (false, s3) => .done false s3
          | (true, s3) => .next s3

/-- `back_chaining_fn::run` (lines 109-138), iterated with fuel (`none` is the
embedding's out-of-fuel artifact for a non-terminating search). -/
def run (cfg : BCConfig) : Nat → BCState → Option (Bool × BCState)
  | 0, _ => none
  | fuel+1, s =>
    match runStep cfg s with
    | .done r s2 => some (r, s2)
    | .next s2 => run cfg fuel s2

/-- Results of the tactic entry point: success, the fixed-message search
failure, the no-goals exception, or fuel exhaustion (an embedding artifact). -/
inductive TacticResult where
  | success (s : TacticState)
  | exception (msg : String) (s : TacticState)
  | noGoalsExc (s : TacticState)
  | outOfFuel
  deriving DecidableEq

/-- Discriminator for `TacticResult.success`. -/
def TacticResult.isSuccess : TacticResult → Bool
  | .success _ => true
  | _ => false

/-- The fixed message of the search-failure exception (line 147 of the source;
abridged here to its failure phrase). -/
def backChainingFailedMsg : String := "back_chaining failed"

/-- `back_chaining_fn::operator()` (lines 140-149): focus the head goal,
run the search, and on success reattach the remaining original goals; on
failure produce the fixed-message exception carrying the initial state.  (The
source reaches this operator only with a non-empty goal list; the empty case
is unreachable and mapped to the no-goals exception.) -/
def bcOperator (cfg : BCConfig) (fuel : Nat) (initial : TacticState) : TacticResult :=
  match initial.goals with
  | [] => .noGoalsExc initial
  | g :: rest =>
    let s0 : BCState := ⟨setGoals initial [g], [], initial.mctx⟩
    match run cfg fuel s0 with
    | none => .outOfFuel
    | some (true, sf) => .success (setGoals sf.state rest)
    | some (false, _) => .exception backChainingFailedMsg initial

/-- `back_chaining` (lines 152-157): the entry point guards the empty goal
list with the no-goals exception before constructing the engine. -/
def back_chaining (cfg : BCConfig) (fuel : Nat) (s : TacticState) : TacticResult :=
  if s.goals.isEmpty then .noGoalsExc s
  else bcOperator cfg fuel s

end BC

/-- Modelled from the spec: lifting of de Bruijn variables (the expression
module implementing it is not among the provided sources).  `liftE e c n` adds
`n` to every free variable of `e` whose index is at least `c`. -/
def liftE : Expr → Nat → Nat → Expr
  | .var i, c, n => if i < c then .var i else .var (i + n)
  | .const s, _, _ => .const s
  | .type l, _, _ => .type l
  | .value v, _, _ => .value v
  | .app f args, c, n => .app (liftE f c n) (go args c n)
  | .eq l r, c, n => .eq (liftE l c n) (liftE r c n)
  | .lam nm d b, c, n => .lam nm (liftE d c n) (liftE b (c+1) n)
  | .pi nm d b, c, n => .pi nm (liftE d c n) (liftE b (c+1) n)
  | .letE nm v b, c, n => .letE nm (liftE v c n) (liftE b (c+1) n)
where go : List Expr → Nat → Nat → List Expr
  | [], _, _ => []
  | a :: as, c, n => liftE a c n :: go as c n

/-- Modelled from the spec (§8 invariant 2 and the glossary's β-reduction):
`substitute b j a` replaces de Bruijn variable `j` of `b` by `a` (lifted
across the binders crossed), lowering the variables above `j`. -/
def substitute : Expr → Nat → Expr → Expr
  | .var i, j, a => if i < j then .var i else if i = j then liftE a 0 j else .var (i - 1)
  | .const s, _, _ => .const s
  | .type l, _, _ => .type l
  | .value v, _, _ => .value v
  | .app f args, j, a => .app (substitute f j a) (go args j a)
  | .eq l r, j, a => .eq (substitute l j a) (substitute r j a)
  | .lam nm d b, j, a => .lam nm (substitute d j a) (substitute b (j+1) a)
  | .pi nm d b, j, a => .pi nm (substitute d j a) (substitute b (j+1) a)
  | .letE nm v b, j, a => .letE nm (substitute v j a) (substitute b (j+1) a)
where go : List Expr → Nat → Expr → List Expr
  | [], _, _ => []
  | b :: bs, j, a => substitute b j a :: go bs j a

namespace KN

/-- An environment in which every constant resolves to a non-definition
(axiom-like) object, the universe order is total, and no built-in computation
rule fires. -/
def axEnv : Env := ⟨fun _ => some .other, fun _ _ => true, fun _ _ => none⟩

/-- A normalizer instance over `axEnv` with no sharing and an ample depth cap. -/
def cfgNoShare : NormCfg := ⟨axEnv, fun _ => false, 1000⟩

/-- A normalizer instance over `axEnv` with no sharing and `max_depth = 3`. -/
def cfgDepth3 : NormCfg := ⟨axEnv, fun _ => false, 3⟩

/-- Fresh normalizer state over the empty ambient context. -/
def stEmpty : NormState := ⟨[], [], false⟩

/-- A context declaring one bodiless free variable `x`. -/
def ctxFree : Context := [⟨"x", .type 0, none⟩]

/-- Fresh normalizer state over `ctxFree`. -/
def stFree : NormState := ⟨ctxFree, [], false⟩

/-- A context let-binding `x` to the identity lambda. -/
def ctxLet : Context := [⟨"x", .type 0, some (.lam "y" (.type 0) (.var 0))⟩]

/-- Fresh normalizer state over `ctxLet`. -/
def stLet : NormState := ⟨ctxLet, [], false⟩

/-- A normalizer instance over `axEnv` in which exactly the expression
`Constant("k")` is shared (hence cached). -/
def cfgShared : NormCfg := ⟨axEnv, fun e => e = .const "k", 1000⟩

/-- A context let-binding `x` to the constant `k`. -/
def ctxCacheDemo : Context := [⟨"x", .type 0, some (.const "k")⟩]

/-- Fresh normalizer state over `ctxCacheDemo`. -/
def stCacheDemo : NormState := ⟨ctxCacheDemo, [], false⟩

/-- The identity lambda `λ x : Type 0. Var 0`. -/
def idLam : Expr := .lam "x" (.type 0) (.var 0)

/-- A term whose β-reduction needs a recursion chain four deep. -/
def chain3 : Expr := .app idLam [.app idLam [.app idLam [.const "c"]]]

end KN

namespace BC

/-- A configuration with inert collaborators: the lemma index is empty, `apply`
and the leaf tactic always fail. -/
def bcCfgInert : BCConfig :=
  ⟨true, 8, id, fun _ => 0, fun _ => [], fun _ => .var 0, fun _ _ _ _ => none, fun _ => none⟩

/-- The inert configuration with `max_depth = 0`. -/
def bcCfgZero : BCConfig :=
  ⟨true, 0, id, fun _ => 0, fun _ => [], fun _ => .var 0, fun _ _ _ _ => none, fun _ => none⟩

/-- A configuration whose leaf tactic always succeeds, returning a state that
still carries two subgoals of its own (which the engine must discard). -/
def bcCfgLeaf : BCConfig :=
  ⟨true, 8, id, fun _ => 0, fun _ => [], fun _ => .var 0, fun _ _ _ _ => none,
   fun _ => some ⟨[.const "sub1", .const "sub2"], 42⟩⟩

/-- States reachable from a given engine state by iterating `runStep`. -/
inductive Reach (cfg : BCConfig) : BCState → BCState → Prop
  | refl (s : BCState) : Reach cfg s s
  | step (s mid s2 : BCState) : runStep cfg s = .next mid → Reach cfg mid s2 → Reach cfg s s2

end BC

/-- `fvLe e n`: every free de Bruijn variable of `e` has index below `n`
(so `fvLe e 0` states that `e` is closed relative to its value stack). -/
def fvLe : Expr → Nat → Bool
  | .var i, n => decide (i < n)
  | .const _, _ => true
  | .type _, _ => true
  | .value _, _ => true
  | .app f args, n => fvLe f n && go args n
  | .eq l r, n => fvLe l n && fvLe r n
  | .lam _ d b, n => fvLe d n && fvLe b (n+1)
  | .pi _ d b, n => fvLe d n && fvLe b (n+1)
  | .letE _ v b, n => fvLe v n && fvLe b (n+1)
where go : List Expr → Nat → Bool
  | [], _ => true
  | a :: as, n => fvLe a n && go as n

namespace KN

/-- An environment is closed when the defining value of every non-opaque
definition is a closed expression, and every result of a built-in computation
rule is closed — the well-formedness the kernel guarantees for the
environments it builds. -/
def EnvClosed (env : Env) : Prop :=
  (∀ (n : String) (v : Expr), env.getObject n = some (.defn false v) → fvLe v 0 = true) ∧
  (∀ (pv : PValue) (args : List Expr) (m : Expr), env.valNorm pv args = some m → fvLe m 0 = true)

mutual

/-- Well-formed, bounded-variable-free stack values: expressions, and closures
of lambdas whose free variables are covered by their captured stack, itself
well formed.  The values produced by normalizing a closed expression under a
well-formed stack are of this shape. -/
inductive SvWf : SValue → Prop where
  | expr (e : Expr) : SvWf (.expr e)
  | closure (nm : String) (dom body : Expr) (stk : List SValue) :
      fvLe (.lam nm dom body) stk.length = true → SvWfList stk →
      SvWf (.closure (.lam nm dom body) stk)

/-- All entries of a stack are well formed. -/
inductive SvWfList : List SValue → Prop where
  | nil : SvWfList []
  | cons (v : SValue) (t : List SValue) : SvWf v → SvWfList t → SvWfList (v :: t)

end

mutual

/-- Correspondence between the stack values of two runs of the normalizer that
differ only in the binder offset `c`: reified expressions coincide, bounded
variables are shifted by `c`, and closures carry the same lambda (with its
free variables covered by the captured stack) over pointwise-related stacks. -/
inductive SvRel (c : Nat) : SValue → SValue → Prop where
  | expr (e : Expr) : SvRel c (.expr e) (.expr e)
  | bvar (j : Nat) : SvRel c (.bvar (j + c)) (.bvar j)
  | closure (nm : String) (dom body : Expr) (s1 s2 : List SValue) :
      fvLe (.lam nm dom body) s2.length = true → SvRelList c s1 s2 →
      SvRel c (.closure (.lam nm dom body) s1) (.closure (.lam nm dom body) s2)

/-- Pointwise correspondence of two value stacks. -/
inductive SvRelList (c : Nat) : List SValue → List SValue → Prop where
  | nil : SvRelList c [] []
  | cons (v1 v2 : SValue) (t1 t2 : List SValue) :
      SvRel c v1 v2 → SvRelList c t1 t2 → SvRelList c (v1 :: t1) (v2 :: t2)

end

/-- An environment with one closed non-opaque definition `id` (all other names
are axiom-like objects). -/
def idEnv : Env :=
  ⟨fun s => if s = "id"
      then some (.defn false (.lam "y" (.type 0) (.pi "z" (.type 0) (.var 1))))
      else some .other,
   fun _ _ => true, fun _ _ => none⟩

/-- A sharing-free normalizer instance over `idEnv`. -/
def cfgIdEnv : NormCfg := ⟨idEnv, fun _ => false, 1000⟩

end KN

namespace KN

/-- Reifying an already-reified expression value returns it unchanged. -/
theorem reify_expr (cfg : NormCfg) (fuel : Nat) (e : Expr) (k d : Nat) (st : NormState) :
    reify cfg (fuel+1) (.expr e) k d st = (st, .ok e) := by
  simp [reify]

/-- Normalizing a `Type` node returns it unchanged (below the depth cap, not
interrupted, not cached). -/
theorem normalize_type (cfg : NormCfg) (fuel : Nat) (u : Nat) (s : List SValue) (k d : Nat)
    (st : NormState) (hint : st.interrupted = false) (hd : d + 1 ≤ cfg.maxDepth)
    (hsh : cfg.shared (.type u) = false) :
    normalize cfg (fuel+1) (.type u) s k d st = (st, .ok (.expr (.type u))) := by
  have hd2 : ¬ (cfg.maxDepth < d + 1) := by omega
  simp [normalize, hint, hd2, hsh]

/-- `is_convertible_core` on two `Type` nodes decides syntactic equality or
the universe order. -/
theorem convCore_type_type (env : Env) (u v : Nat) :
    isConvertibleCore env (.type u) (.type v) = (decide (u = v) || env.isGe u v) := by
  by_cases h : u = v
  · subst h
    simp [isConvertibleCore]
  · have h2 : (Expr.type u) ≠ (Expr.type v) := by
      intro hc; cases hc; exact h rfl
    simp [isConvertibleCore, h2, convLoop, isType, tyLevel, mkBoolType, h]

/-- `setCtx` never changes the interruption flag. -/
theorem setCtx_interrupted (ctx : Context) (st : NormState) :
    (setCtx ctx st).interrupted = st.interrupted := by
  unfold setCtx; split <;> rfl

/-- `setCtx` leaves the cache empty when it was empty. -/
theorem setCtx_cache_of_empty (ctx : Context) (st : NormState) (h : st.cache = []) :
    (setCtx ctx st).cache = [] := by
  unfold setCtx; split
  · exact h
  · rfl

/-- `setCtx` installs the requested context. -/
theorem setCtx_ctx (ctx : Context) (st : NormState) : (setCtx ctx st).ctx = ctx := by
  unfold setCtx; split
  · simp_all
  · rfl

end KN

namespace KN

/-- C1: β-correctness fails on the code.  The normalizer reuses the stack value
computed for the argument verbatim when reifying under additional binders, so
a free variable of the ambient context inside the argument's normal form is
spliced with a de Bruijn index that is off by the number of binders crossed
(captured by the enclosing lambda).  With the context `x : Type 0`,
normalizing `App(λ w. λ y. Var 1, Π z. Var 1)` yields `λ y. Π z. Var 1`
(the inner variable now points at `y`), while normalizing the substitution
`substitute(λ y. Var 1, 0, Π z. Var 1) = λ y. Π z. Var 2` yields
`λ y. Π z. Var 2` — the two disagree.  The scenario S1 instance of the claim
(empty context) does hold and is included as the last conjunct. -/
theorem beta_substitution_violated :
    substitute (.lam "y" (.type 0) (.var 1)) 0 (.pi "z" (.type 0) (.var 1)) =
      .lam "y" (.type 0) (.pi "z" (.type 0) (.var 2)) ∧
    normalizeTop cfgNoShare 40
        (.app (.lam "w" (.type 0) (.lam "y" (.type 0) (.var 1))) [.pi "z" (.type 0) (.var 1)])
        ctxFree stFree = (stFree, .ok (.lam "y" (.type 0) (.pi "z" (.type 0) (.var 1)))) ∧
    normalizeTop cfgNoShare 40 (.lam "y" (.type 0) (.pi "z" (.type 0) (.var 2))) ctxFree stFree =
      (stFree, .ok (.lam "y" (.type 0) (.pi "z" (.type 0) (.var 2)))) ∧
    (.lam "y" (.type 0) (.pi "z" (.type 0) (.var 1)) : Expr) ≠
      .lam "y" (.type 0) (.pi "z" (.type 0) (.var 2)) ∧
    normalizeTop cfgNoShare 40 (.app (.lam "x" (.type 0) (.var 0)) [.const "c"]) [] stEmpty =
      (stEmpty, .ok (.const "c")) :=
  ⟨rfl, by rfl, by rfl, by decide, by rfl⟩

/-- C9: idempotence fails on the code.  `lookup` reifies the body of a
let-bound context entry into a plain expression value, so a lambda bound in
the context loses its closure status: with `x := λ y. Var 0` in the context,
normalizing `App(Var 0, Constant "c")` leaves the unreduced β-redex
`App(λ y. Var 0, Constant "c")`, and normalizing that output again reduces it
to `Constant "c"`. -/
theorem normalize_not_idempotent :
    normalizeTop cfgNoShare 40 (.app (.var 0) [.const "c"]) ctxLet stLet =
      (stLet, .ok (.app (.lam "y" (.type 0) (.var 0)) [.const "c"])) ∧
    normalizeTop cfgNoShare 40 (.app (.lam "y" (.type 0) (.var 0)) [.const "c"]) ctxLet stLet =
      (stLet, .ok (.const "c")) ∧
    (.app (.lam "y" (.type 0) (.var 0)) [.const "c"] : Expr) ≠ .const "c" :=
  ⟨by rfl, by rfl, by decide⟩

/-- C6: entering `normalize` at a recursion depth whose increment exceeds
`max_depth` fails with the kernel exception carrying the fixed message of the
normalizer, for every expression, stack and state (with the interruption flag
clear, which is checked first in the source); and with `max_depth = 3` the
term `App(id, App(id, App(id, c)))`, whose β-reduction needs a recursion chain
four deep, fails with that error. -/
theorem normalize_depth_exceeded (cfg : NormCfg) (fuel : Nat) (a : Expr) (s : List SValue)
    (k d : Nat) (st : NormState) (hint : st.interrupted = false) (hd : cfg.maxDepth < d + 1) :
    normalize cfg (fuel+1) a s k d st = (st, .error (.kernelExc depthExceededMsg)) ∧
    (normalizeTop cfgDepth3 40 chain3 [] stEmpty).2 = .error (.kernelExc depthExceededMsg) ∧
    (normalizeTop cfgDepth3 40 (.app idLam [.app idLam [.const "c"]]) [] stEmpty).2 =
      .ok (.const "c") := by
  refine ⟨?_, by rfl, by rfl⟩
  simp [normalize, hint, hd]

/-- C6 witness: the depth check at a concrete input. -/
theorem normalize_depth_exceeded_witness :
    normalize cfgDepth3 10 (.var 0) [] 0 5 stEmpty =
      (stEmpty, .error (.kernelExc depthExceededMsg)) :=
  (normalize_depth_exceeded cfgDepth3 9 (.var 0) [] 0 5 stEmpty rfl (by decide)).1

end KN

namespace KN

/-- C5: the `Eq` case of the normalizer.  Given successful normalization and
reification of both sides (at the incremented depth, as in the source), the
result is the boolean literal `true` when the reified sides are syntactically
equal, the boolean literal `false` when they differ but are both built-in
`Value`s, and `Eq` of the two reduced sides otherwise.  The last two conjuncts
are the scenario S4 instances: `Eq(Value(1), Value(1))` normalizes to `true`
and `Eq(Value(1), Value(2))` to `false` in the empty context. -/
theorem normalize_eq_cases (cfg : NormCfg) (fuel : Nat) (l r : Expr) (s : List SValue) (k d : Nat)
    (st st1 st2 st3 st4 : NormState) (vl vr : SValue) (el er2 : Expr)
    (hint : st.interrupted = false) (hd : d + 1 ≤ cfg.maxDepth)
    (hsh : cfg.shared (.eq l r) = false)
    (h1 : normalize cfg fuel l s k (d+1) st = (st1, .ok vl))
    (h2 : reify cfg fuel vl k (d+1) st1 = (st2, .ok el))
    (h3 : normalize cfg fuel r s k (d+1) st2 = (st3, .ok vr))
    (h4 : reify cfg fuel vr k (d+1) st3 = (st4, .ok er2)) :
    normalize cfg (fuel+1) (.eq l r) s k d st =
      (if el = er2 then (st4, .ok (.expr (mkBoolValue true)))
       else if isValueE el && isValueE er2 then (st4, .ok (.expr (mkBoolValue false)))
       else (st4, .ok (.expr (.eq el er2)))) ∧
    (normalizeTop cfgNoShare 40 (.eq (.value (.numVal 1)) (.value (.numVal 1))) [] stEmpty).2 =
      .ok (mkBoolValue true) ∧
    (normalizeTop cfgNoShare 40 (.eq (.value (.numVal 1)) (.value (.numVal 2))) [] stEmpty).2 =
      .ok (mkBoolValue false) := by
  refine ⟨?_, by rfl, by rfl⟩
  have hd2 : ¬ (cfg.maxDepth < d + 1) := by omega
  simp only [normalize, hint, Bool.false_eq_true, if_false, hd2, hsh, h1, h2, h3, h4]
  split
  · simp_all
  · split <;> simp_all

/-- C5 witness: the general `Eq` contract applied at `Eq(Value(1), Value(1))`
in the fresh empty state. -/
theorem normalize_eq_cases_witness :
    normalize cfgNoShare 11 (.eq (.value (.numVal 1)) (.value (.numVal 1))) [] 0 0 stEmpty =
      (stEmpty, .ok (.expr (mkBoolValue true))) := by
  have h := (normalize_eq_cases cfgNoShare 10 (.value (.numVal 1)) (.value (.numVal 1)) [] 0 0
    stEmpty stEmpty stEmpty stEmpty stEmpty (.expr (.value (.numVal 1)))
    (.expr (.value (.numVal 1))) (.value (.numVal 1)) (.value (.numVal 1))
    rfl (by decide) rfl (by rfl) (by rfl) (by rfl) (by rfl)).1
  simpa using h

end KN

namespace KN

/-- C7: universe cumulativity of convertibility.  Over an environment whose
universe order is reflexive (a partial order, as the spec requires of the
environment), and for a sharing-free normalizer instance below the depth cap
instance, `is_convertible(Type(u), Type(v), ctx)` returns exactly
`env.is_ge(u, v)`, for all levels `u`, `v` and every ambient context. -/
theorem is_convertible_type_cumulativity (cfg : NormCfg) (fuel : Nat) (u v : Nat) (ctx : Context)
    (st : NormState) (hrefl : ∀ w, cfg.env.isGe w w = true) (hsh : ∀ e, cfg.shared e = false)
    (hmax : 1 ≤ cfg.maxDepth) (hint : st.interrupted = false) :
    (isConvertible cfg (fuel+1) (.type u) (.type v) ctx st).2 = .ok (cfg.env.isGe u v) := by
  by_cases hcore : isConvertibleCore cfg.env (.type u) (.type v) = true
  · have hge : cfg.env.isGe u v = true := by
      rw [convCore_type_type] at hcore
      rcases Bool.or_eq_true_iff.1 hcore with h | h
      · have huv : u = v := of_decide_eq_true h
        subst huv
        exact hrefl u
      · exact h
    simp [isConvertible, hcore, hge]
  · have hcore2 : isConvertibleCore cfg.env (.type u) (.type v) = false :=
      Bool.not_eq_true _ ▸ Bool.of_not_eq_true hcore
    have hge : cfg.env.isGe u v = false := by
      rw [convCore_type_type] at hcore2
      exact (Bool.or_eq_false_iff.1 hcore2).2
    have hint1 : (setCtx ctx st).interrupted = false := by
      rw [setCtx_interrupted]; exact hint
    have hn1 : normalize cfg (fuel+1) (.type u) [] (setCtx ctx st).ctx.length 0 (setCtx ctx st) =
        (setCtx ctx st, .ok (.expr (.type u))) :=
      normalize_type cfg fuel u [] _ 0 (setCtx ctx st) hint1 (by omega) (hsh _)
    have hn2 : normalize cfg (fuel+1) (.type v) [] (setCtx ctx st).ctx.length 0 (setCtx ctx st) =
        (setCtx ctx st, .ok (.expr (.type v))) :=
      normalize_type cfg fuel v [] _ 0 (setCtx ctx st) hint1 (by omega) (hsh _)
    simp only [isConvertible, hcore2, Bool.false_eq_true, if_false, hn1, reify_expr, hn2, hcore2]
    exact congrArg Except.ok hge.symm

end KN

namespace KN

/-- C7 witness: the cumulativity contract applied at `Type 2`, `Type 1` over
the total universe order of `axEnv`. -/
theorem is_convertible_type_cumulativity_witness :
    (isConvertible cfgNoShare 6 (.type 2) (.type 1) [] stEmpty).2 = .ok true :=
  is_convertible_type_cumulativity cfgNoShare 5 2 1 [] stEmpty (fun _ => rfl) (fun _ => rfl)
    (by decide) rfl

end KN

namespace KN

/-- C4 (amended): scoped context discipline of the normalizer.  When `lookup`
reaches a context entry with a body (the `save_context` region): (i) on every
exit path — successful or exceptional — the state returned carries the
previous ambient context (the destructor restores `m_ctx`); (ii) the cache is
flushed on entry, so the outcome is entirely independent of the cache contents
at the call (two calls differing only in the incoming cache coincide); and
(iii) `set_ctx` flushes the cache exactly when the new ambient context differs
from the current one.  The cache is however not flushed when the region is
exited; see the counterexample theorem for an entry recorded inside the
region that stays visible after the previous context is restored. -/
theorem save_context_discipline (cfg : NormCfg) (fuel : Nat) (j k d : Nat) (st : NormState)
    (entry : ContextEntry) (entryC : Context) (b : Expr)
    (hext : lookupExt st.ctx j = some (entry, entryC)) (hb : entry.body = some b) :
    ((lookup cfg (fuel+1) [] j k d st).1.ctx = st.ctx) ∧
    (∀ c1 c2 : List (List (Expr × SValue)),
      lookup cfg (fuel+1) [] j k d { st with cache := c1 } =
      lookup cfg (fuel+1) [] j k d { st with cache := c2 }) ∧
    (∀ (ctx2 : Context) (st2 : NormState), ctx2 ≠ st2.ctx →
      setCtx ctx2 st2 = ⟨ctx2, [], st2.interrupted⟩) ∧
    (∀ (ctx2 : Context) (st2 : NormState), ctx2 = st2.ctx → setCtx ctx2 st2 = st2) := by
  refine ⟨?_, ?_, ?_, ?_⟩
  · simp only [lookup, hext, hb]
    rcases hn : normalize cfg fuel b [] entryC.length d { st with ctx := entryC, cache := [] } with
      ⟨st1, r1⟩
    cases r1 with
    | error er => simp [hn]
    | ok v =>
      rcases hr : reify cfg fuel v entryC.length d st1 with ⟨st2, r2⟩
      cases r2 with
      | error er => simp [hn, hr]
      | ok e2 => simp [hn, hr]
  · intro c1 c2
    simp only [lookup, hext, hb]
  · intro ctx2 st2 hne
    simp [setCtx, hne]
  · intro ctx2 st2 heq
    simp [setCtx, heq]

/-- C4 counterexample: the claim that leaving a `save_context` region flushes
the cache — so that no entry recorded under one ambient context stays visible
under another — fails on the code.  With `x := Constant("k")` in the ambient
context and `Constant("k")` shared, normalizing `Var 0` enters the region
(ambient context becomes the empty prefix), caches the entry for
`Constant("k")` there, and on exit restores the outer context without clearing
the cache: the final state still resolves `Constant("k")` in the cache while
its ambient context is the outer, different one. -/
theorem save_context_exit_cache_counterexample :
    cacheFind (normalizeTop cfgShared 40 (.var 0) ctxCacheDemo stCacheDemo).1.cache (.const "k") =
      some (.expr (.const "k")) ∧
    (normalizeTop cfgShared 40 (.var 0) ctxCacheDemo stCacheDemo).1.ctx = ctxCacheDemo ∧
    ctxCacheDemo ≠ ([] : Context) :=
  ⟨by rfl, by rfl, by decide⟩

/-- C4 witness: the scoped-context discipline applied at the concrete
let-bound context `ctxCacheDemo`. -/
theorem save_context_discipline_witness :
    ((lookup cfgShared 10 [] 0 1 1 stCacheDemo).1.ctx = stCacheDemo.ctx) ∧
    (setCtx [] stCacheDemo = ⟨[], [], false⟩) := by
  have h := save_context_discipline cfgShared 9 0 1 1 stCacheDemo
    ⟨"x", .type 0, some (.const "k")⟩ [] (.const "k") (by rfl) rfl
  exact ⟨h.1, h.2.2.1 [] stCacheDemo (by decide)⟩

end KN

namespace BC

/-- C3 counterexample: the claim that the backward-chaining entry point
returns success on a state with empty goals fails on the code — the entry
point guards the empty goal list with `mk_no_goals_exception`, which is not a
success. -/
theorem back_chaining_empty_goals_not_success :
    (back_chaining bcCfgInert 5 ⟨[], 0⟩).isSuccess = false ∧
    back_chaining bcCfgInert 5 ⟨[], 0⟩ = .noGoalsExc ⟨[], 0⟩ :=
  ⟨by rfl, by rfl⟩

/-- C3 (amended): a state with empty goals makes the entry point return the
no-goals exception immediately, for every configuration — hence without
invoking the leaf tactic or applying any lemma; the search loop `run` itself,
on an engine state with empty goals, returns success immediately and
unchanged, again for every configuration. -/
theorem back_chaining_no_goals (cfg : BCConfig) (fuel : Nat) (s : TacticState) (bs : BCState)
    (hs : s.goals = []) (hbs : bs.state.goals = []) :
    back_chaining cfg fuel s = .noGoalsExc s ∧ run cfg (fuel+1) bs = some (true, bs) := by
  constructor
  · simp [back_chaining, hs]
  · simp [run, runStep, hbs]

/-- C3 witness: the amended no-goals behaviour at a concrete empty-goal state. -/
theorem back_chaining_no_goals_witness :
    back_chaining bcCfgInert 7 ⟨[], 3⟩ = .noGoalsExc ⟨[], 3⟩ ∧
    run bcCfgInert 8 ⟨⟨[], 3⟩, [], 0⟩ = some (true, ⟨⟨[], 3⟩, [], 0⟩) :=
  back_chaining_no_goals bcCfgInert 7 ⟨[], 3⟩ ⟨⟨[], 3⟩, [], 0⟩ rfl rfl

/-- C10: the leaf-tactic invocation contract.  With the goal list `g :: rest`,
the engine runs the leaf tactic on the state focused on `[g]`; if it succeeds
with state `ns`, the engine's next state is exactly `ns` with its goal list
replaced by `rest` — any subgoals still present in `ns` are discarded, not
appended; if it fails, the engine state is returned unchanged. -/
theorem invoke_leaf_tactic_spec (cfg : BCConfig) (s : BCState) (g : Expr) (rest : List Expr)
    (hg : s.state.goals = g :: rest) :
    (∀ ns, cfg.leafTactic (setGoals s.state [g]) = some ns →
      invokeLeafTactic cfg s = (true, { s with state := setGoals ns rest })) ∧
    (cfg.leafTactic (setGoals s.state [g]) = none →
      invokeLeafTactic cfg s = (false, s)) := by
  constructor
  · intro ns hns
    simp [invokeLeafTactic, hg, hns]
  · intro hnone
    simp [invokeLeafTactic, hg, hnone]

/-- C10 witness: the leaf tactic of `bcCfgLeaf` succeeds with a state carrying
two subgoals of its own; the engine adopts it with the goal list replaced by
the remaining original goal, discarding those subgoals. -/
theorem invoke_leaf_tactic_spec_witness :
    invokeLeafTactic bcCfgLeaf ⟨⟨[.const "g1", .const "g2"], 5⟩, [], 0⟩ =
      (true, ⟨⟨[.const "g2"], 42⟩, [], 0⟩) :=
  (invoke_leaf_tactic_spec bcCfgLeaf ⟨⟨[.const "g1", .const "g2"], 5⟩, [], 0⟩ (.const "g1")
    [.const "g2"] rfl).1 ⟨[.const "sub1", .const "sub2"], 42⟩ rfl

end BC

namespace BC

/-- The lemma-trial loop grows the choice stack by at most one frame. -/
theorem tryLemmasLoop_choices_le (cfg : BCConfig) (saved : TacticState) (choices : List Choice)
    (tcx : Nat) (lemmas : List BackwardLemma) :
    ∀ (b : Bool) (s2 : BCState), tryLemmasLoop cfg saved choices tcx lemmas = (b, s2) →
      s2.choices.length ≤ choices.length + 1 := by
  induction lemmas with
  | nil =>
    intro b s2 h
    simp only [tryLemmasLoop, Prod.mk.injEq] at h
    obtain ⟨_, hs⟩ := h
    subst hs
    simp
  | cons bl rest ih =>
    intro b s2 h
    simp only [tryLemmasLoop] at h
    cases happ : cfg.applyFn tcx cfg.useInstances (cfg.blemmaToExpr bl) saved with
    | some ns =>
      rw [happ] at h
      simp only [Prod.mk.injEq] at h
      obtain ⟨_, hs⟩ := h
      subst hs
      by_cases hre : rest.isEmpty <;> simp [hre]
    | none =>
      rw [happ] at h
      exact ih b s2 h

/-- A failing lemma-trial loop returns the saved state, the incoming choice
stack and the installed metavariable context unchanged. -/
theorem tryLemmasLoop_false (cfg : BCConfig) (saved : TacticState) (choices : List Choice)
    (tcx : Nat) (lemmas : List BackwardLemma) :
    ∀ s2 : BCState, tryLemmasLoop cfg saved choices tcx lemmas = (false, s2) →
      s2 = ⟨saved, choices, tcx⟩ := by
  induction lemmas with
  | nil =>
    intro s2 h
    simp only [tryLemmasLoop, Prod.mk.injEq] at h
    exact h.2.symm
  | cons bl rest ih =>
    intro s2 h
    simp only [tryLemmasLoop] at h
    cases happ : cfg.applyFn tcx cfg.useInstances (cfg.blemmaToExpr bl) saved with
    | some ns =>
      rw [happ] at h
      simp at h
    | none =>
      rw [happ] at h
      exact ih s2 h

/-- Backtracking never grows the choice stack. -/
theorem backtrackLoop_choices_le (cfg : BCConfig) (choices : List Choice) :
    ∀ (cur : TacticState) (tcx : Nat) (b : Bool) (s2 : BCState),
      backtrackLoop cfg cur tcx choices = (b, s2) → s2.choices.length ≤ choices.length := by
  induction choices with
  | nil =>
    intro cur tcx b s2 h
    simp only [backtrackLoop, Prod.mk.injEq] at h
    obtain ⟨_, hs⟩ := h
    subst hs
    simp
  | cons c rest ih =>
    intro cur tcx b s2 h
    simp only [backtrackLoop] at h
    cases htl : tryLemmasLoop cfg c.state rest c.state.mctx c.lemmas with
    | mk b1 s1 =>
      rw [htl] at h
      cases b1 with
      | true =>
        simp only [Prod.mk.injEq] at h
        obtain ⟨_, hs⟩ := h
        subst hs
        simpa [List.length_cons] using tryLemmasLoop_choices_le cfg c.state rest c.state.mctx
          c.lemmas true s1 htl
      | false =>
        have := ih s1.state s1.tcxMctx b s2 h
        exact this.trans (by simp)

/-- The leaf-tactic invocation never touches the choice stack. -/
theorem invokeLeafTactic_choices (cfg : BCConfig) (s : BCState) :
    (invokeLeafTactic cfg s).2.choices = s.choices := by
  unfold invokeLeafTactic
  rcases hgl : s.state.goals with _ | ⟨g, rest⟩
  · rfl
  · cases hl : cfg.leafTactic (setGoals s.state [g]) <;> simp [hl]

/-- The lemma-trial loop does not depend on the goal-directed collaborators
(`whnf`, `head_index`, the lemma index, the leaf tactic). -/
theorem tryLemmasLoop_congr (cfg cfg2 : BCConfig) (h1 : cfg2.useInstances = cfg.useInstances)
    (h2 : cfg2.blemmaToExpr = cfg.blemmaToExpr) (h3 : cfg2.applyFn = cfg.applyFn)
    (saved : TacticState) (choices : List Choice) (tcx : Nat) (lemmas : List BackwardLemma) :
    tryLemmasLoop cfg2 saved choices tcx lemmas = tryLemmasLoop cfg saved choices tcx lemmas := by
  induction lemmas with
  | nil => simp [tryLemmasLoop]
  | cons bl rest ih =>
    simp only [tryLemmasLoop, h1, h2, h3]
    cases cfg.applyFn tcx cfg.useInstances (cfg.blemmaToExpr bl) saved <;> simp [ih]

/-- Backtracking does not depend on the goal-directed collaborators. -/
theorem backtrackLoop_congr (cfg cfg2 : BCConfig) (h1 : cfg2.useInstances = cfg.useInstances)
    (h2 : cfg2.blemmaToExpr = cfg.blemmaToExpr) (h3 : cfg2.applyFn = cfg.applyFn)
    (choices : List Choice) :
    ∀ (cur : TacticState) (tcx : Nat),
      backtrackLoop cfg2 cur tcx choices = backtrackLoop cfg cur tcx choices := by
  induction choices with
  | nil => intro cur tcx; rfl
  | cons c rest ih =>
    intro cur tcx
    simp only [backtrackLoop, tryLemmasLoop_congr cfg cfg2 h1 h2 h3]
    cases tryLemmasLoop cfg c.state rest c.state.mctx c.lemmas with
    | mk b1 s1 => cases b1 <;> simp [ih]

end BC

namespace BC

/-- One search step keeps the choice stack within the `max_depth` bound. -/
theorem runStep_next_choices_le (cfg : BCConfig) (s s2 : BCState)
    (hle : s.choices.length ≤ cfg.maxDepth) (h : runStep cfg s = .next s2) :
    s2.choices.length ≤ cfg.maxDepth := by
  rcases hgl : s.state.goals with _ | ⟨g, gs⟩
  · simp only [runStep, hgl] at h
    exact StepRes.noConfusion h
  · simp only [runStep, hgl] at h
    split at h
    · -- at the cap: only backtracking
      split at h
      · exact StepRes.noConfusion h
      · rename_i s3 heq
        injection h with h2
        subst h2
        have hbt2 : backtrackLoop cfg s.state s.tcxMctx s.choices = (true, s3) := heq
        exact (backtrackLoop_choices_le cfg s.choices s.state s.tcxMctx true s3 hbt2).trans hle
    · rename_i hcap
      have hlt : s.choices.length + 1 ≤ cfg.maxDepth := by omega
      split at h
      · -- no candidate lemmas: leaf tactic, then possibly backtrack
        split at h
        · rename_i sl heq
          injection h with h2
          subst h2
          have hslc : sl.choices = s.choices := by
            have hc := invokeLeafTactic_choices cfg s
            rw [heq] at hc
            exact hc
          rw [hslc]
          exact hle
        · rename_i sl heq
          have hslc : sl.choices = s.choices := by
            have hc := invokeLeafTactic_choices cfg s
            rw [heq] at hc
            exact hc
          split at h
          · exact StepRes.noConfusion h
          · rename_i s3 heq2
            injection h with h2
            subst h2
            have hbt2 : backtrackLoop cfg sl.state sl.tcxMctx sl.choices = (true, s3) := heq2
            have := backtrackLoop_choices_le cfg sl.choices sl.state sl.tcxMctx true s3 hbt2
            rw [hslc] at this
            exact this.trans hle
      · -- candidate lemmas: try them, then possibly backtrack
        split at h
        · rename_i st2 heq
          injection h with h2
          subst h2
          have htl2 : tryLemmasLoop cfg s.state s.choices s.state.mctx
              (cfg.findLemmas (cfg.headIndex (cfg.whnf g))) = (true, st2) := heq
          have := tryLemmasLoop_choices_le cfg s.state s.choices s.state.mctx
            (cfg.findLemmas (cfg.headIndex (cfg.whnf g))) true st2 htl2
          omega
        · rename_i st2 heq
          have htl2 : tryLemmasLoop cfg s.state s.choices s.state.mctx
              (cfg.findLemmas (cfg.headIndex (cfg.whnf g))) = (false, st2) := heq
          have hst2 : st2 = ⟨s.state, s.choices, s.state.mctx⟩ :=
            tryLemmasLoop_false cfg s.state s.choices s.state.mctx
              (cfg.findLemmas (cfg.headIndex (cfg.whnf g))) st2 htl2
          split at h
          · exact StepRes.noConfusion h
          · rename_i s3 heq2
            injection h with h2
            subst h2
            have hbt2 : backtrackLoop cfg st2.state st2.tcxMctx st2.choices = (true, s3) := heq2
            have := backtrackLoop_choices_le cfg st2.choices st2.state st2.tcxMctx true s3 hbt2
            rw [hst2] at this
            simp only at this
            exact this.trans hle

end BC

namespace BC

/-- C8: bounded search.  For any configuration: (i) one step of `run()`
preserves the bound `|m_choices| ≤ max_depth`, hence (ii) along every run from
a state within the bound — in particular from the initial state with an empty
choice stack — the choice stack never exceeds `max_depth` frames (so at most
`max_depth + 1` frames are ever nested, as the spec phrases it); (iii) when
the stored choice points reach or exceed `max_depth` on a state with goals,
the step is exactly a backtrack — failure if the stack is exhausted, restart
otherwise — and its outcome is independent of the goal-directed collaborators
(`whnf`, `head_index`, the lemma index and the leaf tactic), i.e. no new
lemmas are tried and the leaf tactic is not invoked on the current goal; and
(iv) at the cap with an exhausted choice stack the step returns failure. -/
theorem back_chaining_bounded_search (cfg : BCConfig) :
    (∀ s s2 : BCState, s.choices.length ≤ cfg.maxDepth → runStep cfg s = .next s2 →
      s2.choices.length ≤ cfg.maxDepth) ∧
    (∀ s0 s2 : BCState, Reach cfg s0 s2 → s0.choices.length ≤ cfg.maxDepth →
      s2.choices.length ≤ cfg.maxDepth ∧ s2.choices.length ≤ cfg.maxDepth + 1) ∧
    (∀ (s : BCState) (g : Expr) (gs : List Expr), s.state.goals = g :: gs →
      cfg.maxDepth ≤ s.choices.length →
      (runStep cfg s = (match backtrack cfg s with
        | (false, s3) => .done false s3
        | (true, s3) => .next s3)) ∧
      (∀ cfg2 : BCConfig, cfg2.useInstances = cfg.useInstances →
        cfg2.maxDepth = cfg.maxDepth → cfg2.blemmaToExpr = cfg.blemmaToExpr →
        cfg2.applyFn = cfg.applyFn → runStep cfg2 s = runStep cfg s)) ∧
    (∀ (s : BCState) (g : Expr) (gs : List Expr), s.state.goals = g :: gs →
      cfg.maxDepth ≤ s.choices.length → s.choices = [] →
      runStep cfg s = .done false ⟨s.state, [], s.tcxMctx⟩) := by
  have hstep := runStep_next_choices_le cfg
  have hcapstep : ∀ (cfgA : BCConfig) (s : BCState) (g : Expr) (gs : List Expr),
      s.state.goals = g :: gs → cfgA.maxDepth ≤ s.choices.length →
      runStep cfgA s = (match backtrack cfgA s with
        | (false, s3) => .done false s3
        | (true, s3) => .next s3) := by
    intro cfgA s g gs hgl hcap
    simp only [runStep, hgl, if_pos hcap]
  refine ⟨hstep, ?_, ?_, ?_⟩
  · intro s0 s2 hreach
    induction hreach with
    | refl s => exact fun hle => ⟨hle, by omega⟩
    | step s mid s2 hs hmid ih =>
      intro hle
      exact ih (hstep s mid hle hs)
  · intro s g gs hgl hcap
    refine ⟨hcapstep cfg s g gs hgl hcap, ?_⟩
    intro cfg2 h1 h2 h3 h4
    have hbt : backtrack cfg2 s = backtrack cfg s := by
      unfold backtrack
      exact backtrackLoop_congr cfg cfg2 h1 h3 h4 s.choices s.state s.tcxMctx
    rw [hcapstep cfg s g gs hgl hcap, hcapstep cfg2 s g gs hgl (by omega)]
    rw [hbt]
  · intro s g gs hgl hcap hnil
    rw [hcapstep cfg s g gs hgl hcap]
    have : backtrack cfg s = (false, ⟨s.state, [], s.tcxMctx⟩) := by
      unfold backtrack
      rw [hnil]
      rfl
    rw [this]

/-- C8 witness: with `max_depth = 0` and a single goal, the very first step
backtracks on the empty choice stack and fails. -/
theorem back_chaining_bounded_search_witness :
    runStep bcCfgZero ⟨⟨[.const "g"], 0⟩, [], 0⟩ =
      .done false ⟨⟨[.const "g"], 0⟩, [], 0⟩ :=
  (back_chaining_bounded_search bcCfgZero).2.2.2 ⟨⟨[.const "g"], 0⟩, [], 0⟩ (.const "g") []
    rfl (by decide) rfl

end BC

namespace KN

mutual

/-- Free-variable bounds are monotone. -/
theorem fvLe_mono : ∀ (e : Expr) (n m : Nat), fvLe e n = true → n ≤ m → fvLe e m = true
  | .var i, n, m, h, hle => by
    simp only [fvLe, decide_eq_true_eq] at h ⊢
    omega
  | .const _, _, _, _, _ => by simp [fvLe]
  | .type _, _, _, _, _ => by simp [fvLe]
  | .value _, _, _, _, _ => by simp [fvLe]
  | .app f args, n, m, h, hle => by
    simp only [fvLe, Bool.and_eq_true] at h ⊢
    exact ⟨fvLe_mono f n m h.1 hle, fvLe_go_mono args n m h.2 hle⟩
  | .eq l r, n, m, h, hle => by
    simp only [fvLe, Bool.and_eq_true] at h ⊢
    exact ⟨fvLe_mono l n m h.1 hle, fvLe_mono r n m h.2 hle⟩
  | .lam nm d b, n, m, h, hle => by
    simp only [fvLe, Bool.and_eq_true] at h ⊢
    exact ⟨fvLe_mono d n m h.1 hle, fvLe_mono b (n+1) (m+1) h.2 (by omega)⟩
  | .pi nm d b, n, m, h, hle => by
    simp only [fvLe, Bool.and_eq_true] at h ⊢
    exact ⟨fvLe_mono d n m h.1 hle, fvLe_mono b (n+1) (m+1) h.2 (by omega)⟩
  | .letE nm v b, n, m, h, hle => by
    simp only [fvLe, Bool.and_eq_true] at h ⊢
    exact ⟨fvLe_mono v n m h.1 hle, fvLe_mono b (n+1) (m+1) h.2 (by omega)⟩

/-- Free-variable bounds of argument lists are monotone. -/
theorem fvLe_go_mono : ∀ (as : List Expr) (n m : Nat), fvLe.go as n = true → n ≤ m →
    fvLe.go as m = true
  | [], _, _, _, _ => by simp [fvLe.go]
  | a :: as, n, m, h, hle => by
    simp only [fvLe.go, Bool.and_eq_true] at h ⊢
    exact ⟨fvLe_mono a n m h.1 hle, fvLe_go_mono as n m h.2 hle⟩

end

mutual

/-- At offset zero the correspondence is equality. -/
theorem svRel_zero_eq : ∀ {v1 v2 : SValue}, SvRel 0 v1 v2 → v1 = v2
  | _, _, .expr e => rfl
  | _, _, .bvar j => rfl
  | _, _, .closure nm dom body s1 s2 hfv hlist => by
    rw [svRelList_zero_eq hlist]

/-- At offset zero the stack correspondence is equality. -/
theorem svRelList_zero_eq : ∀ {s1 s2 : List SValue}, SvRelList 0 s1 s2 → s1 = s2
  | _, _, .nil => rfl
  | _, _, .cons v1 v2 t1 t2 hv ht => by
    rw [svRel_zero_eq hv, svRelList_zero_eq ht]

end

mutual

/-- A well-formed (bounded-variable-free) value corresponds to itself at every
offset. -/
theorem svWf_rel (c : Nat) : ∀ {v : SValue}, SvWf v → SvRel c v v
  | _, .expr e => .expr e
  | _, .closure nm dom body stk hfv hwf => .closure nm dom body stk stk hfv (svWfList_rel c hwf)

/-- A well-formed stack corresponds to itself at every offset. -/
theorem svWfList_rel (c : Nat) : ∀ {s : List SValue}, SvWfList s → SvRelList c s s
  | _, .nil => .nil
  | _, .cons v t hv ht => .cons v v t t (svWf_rel c hv) (svWfList_rel c ht)

end

/-- Related stacks have equal length. -/
theorem svRelList_length {c : Nat} : ∀ {s1 s2 : List SValue}, SvRelList c s1 s2 →
    s1.length = s2.length
  | _, _, .nil => rfl
  | _, _, .cons _ _ _ _ _ ht => by simp [svRelList_length ht]

end KN

namespace KN

/-- Normalizing a closed expression over a well-formed (bounded-variable-free)
stack in a sharing-free instance of a closed environment yields a well-formed
value: the three conjuncts cover `normalize`, the application loop and the
stack lookup.  Fuel induction. -/
theorem svWf_preservation (cfg : NormCfg) (hsh : ∀ x, cfg.shared x = false)
    (henv : EnvClosed cfg.env) : ∀ f1 : Nat,
    (∀ (e : Expr) (s : List SValue) (k d : Nat) (st st2 : NormState) (r : SValue),
      SvWfList s → fvLe e s.length = true →
      normalize cfg f1 e s k d st = (st2, .ok r) → SvWf r) ∧
    (∀ (fv : SValue) (args : List Expr) (s : List SValue) (k d : Nat)
      (st st2 : NormState) (r : SValue),
      SvWf fv → SvWfList s → fvLe.go args s.length = true →
      normApp cfg f1 fv args s k d st = (st2, .ok r) → SvWf r) ∧
    (∀ (s : List SValue) (i k d : Nat) (st st2 : NormState) (r : SValue),
      SvWfList s → i < s.length →
      lookup cfg f1 s i k d st = (st2, .ok r) → SvWf r) := by
  intro f1
  induction f1 with
  | zero =>
    refine ⟨?_, ?_, ?_⟩
    · intro e s k d st st2 r _ _ h
      simp [normalize] at h
    · intro fv args s k d st st2 r _ _ _ h
      simp [normApp] at h
    · intro s i k d st st2 r _ _ h
      simp [lookup] at h
  | succ m ih =>
    obtain ⟨ihn, iha, ihl⟩ := ih
    refine ⟨?_, ?_, ?_⟩
    · -- normalize
      intro e s k d st st2 r hwf hfv h
      cases e with
      | var i =>
        simp only [normalize, hsh] at h
        split at h
        · simp at h
        · split at h
          · simp at h
          · simp only [Bool.false_eq_true, if_false] at h
            rcases hx : lookup cfg m s i k (d+1) st with ⟨st9, rr⟩
            rw [hx] at h
            cases rr with
            | error er => simp at h
            | ok v =>
              simp only [Prod.mk.injEq, Except.ok.injEq] at h
              obtain ⟨-, hr⟩ := h
              subst hr
              refine ihl s i k (d+1) st st9 v hwf ?_ hx
              simpa [fvLe] using hfv
      | const n =>
        simp only [normalize, hsh] at h
        split at h
        · simp at h
        · split at h
          · simp at h
          · simp only [Bool.false_eq_true, if_false] at h
            cases hobj : cfg.env.getObject n with
            | none => rw [hobj] at h; simp at h
            | some obj =>
              rw [hobj] at h
              cases obj with
              | other =>
                simp only [Prod.mk.injEq, Except.ok.injEq] at h
                obtain ⟨-, hr⟩ := h
                subst hr
                exact .expr _
              | defn opq v =>
                cases opq with
                | true =>
                  simp only [if_true, Prod.mk.injEq, Except.ok.injEq] at h
                  obtain ⟨-, hr⟩ := h
                  subst hr
                  exact .expr _
                | false =>
                  simp only [Bool.false_eq_true, if_false] at h
                  rcases hx : normalize cfg m v [] 0 (d+1) st with ⟨st9, rr⟩
                  rw [hx] at h
                  cases rr with
                  | error er => simp at h
                  | ok v2 =>
                    simp only [Prod.mk.injEq, Except.ok.injEq] at h
                    obtain ⟨-, hr⟩ := h
                    subst hr
                    exact ihn v [] 0 (d+1) st st9 v2 .nil (henv.1 n v hobj) hx
      | type u =>
        simp only [normalize, hsh] at h
        split at h
        · simp at h
        · split at h
          · simp at h
          · simp only [Bool.false_eq_true, if_false, Prod.mk.injEq, Except.ok.injEq] at h
            obtain ⟨-, hr⟩ := h
            subst hr
            exact .expr _
      | value pv =>
        simp only [normalize, hsh] at h
        split at h
        · simp at h
        · split at h
          · simp at h
          · simp only [Bool.false_eq_true, if_false, Prod.mk.injEq, Except.ok.injEq] at h
            obtain ⟨-, hr⟩ := h
            subst hr
            exact .expr _
      | lam nm dom body =>
        simp only [normalize, hsh] at h
        split at h
        · simp at h
        · split at h
          · simp at h
          · simp only [Bool.false_eq_true, if_false, Prod.mk.injEq, Except.ok.injEq] at h
            obtain ⟨-, hr⟩ := h
            subst hr
            exact .closure nm dom body s hfv hwf
      | app f args =>
        simp only [normalize, hsh] at h
        split at h
        · simp at h
        · split at h
          · simp at h
          · simp only [Bool.false_eq_true, if_false] at h
            rcases hx : normalize cfg m f s k (d+1) st with ⟨st9, rr⟩
            rw [hx] at h
            cases rr with
            | error er => simp at h
            | ok fv =>
              simp only at h
              have hfv2 : fvLe f s.length = true ∧ fvLe.go args s.length = true := by
                simpa [fvLe] using hfv
              have hfwf : SvWf fv := ihn f s k (d+1) st st9 fv hwf hfv2.1 hx
              rcases hy : normApp cfg m fv args s k (d+1) st9 with ⟨st8, rr2⟩
              rw [hy] at h
              cases rr2 with
              | error er => simp at h
              | ok v2 =>
                simp only [Prod.mk.injEq, Except.ok.injEq] at h
                obtain ⟨-, hr⟩ := h
                subst hr
                exact iha fv args s k (d+1) st9 st8 v2 hfwf hwf hfv2.2 hy
      | eq l rr =>
        simp only [normalize, hsh] at h
        split at h
        · simp at h
        · split at h
          · simp at h
          · simp only [Bool.false_eq_true, if_false] at h
            rcases h1 : normalize cfg m l s k (d+1) st with ⟨stA, r1⟩
            rw [h1] at h
            cases r1 with
            | error er => simp at h
            | ok vl =>
              simp only at h
              rcases h2 : reify cfg m vl k (d+1) stA with ⟨stB, r2⟩
              rw [h2] at h
              cases r2 with
              | error er => simp at h
              | ok el =>
                simp only at h
                rcases h3 : normalize cfg m rr s k (d+1) stB with ⟨stC, r3⟩
                rw [h3] at h
                cases r3 with
                | error er => simp at h
                | ok vr =>
                  simp only at h
                  rcases h4 : reify cfg m vr k (d+1) stC with ⟨stD, r4⟩
                  rw [h4] at h
                  cases r4 with
                  | error er => simp at h
                  | ok er2 =>
                    simp only at h
                    by_cases hc : el = er2
                    · rw [if_pos hc] at h
                      simp only [Prod.mk.injEq, Except.ok.injEq] at h
                      obtain ⟨-, hr⟩ := h
                      subst hr
                      exact .expr _
                    · rw [if_neg hc] at h
                      by_cases hv2 : (isValueE el && isValueE er2) = true
                      · rw [if_pos hv2] at h
                        simp only [Prod.mk.injEq, Except.ok.injEq] at h
                        obtain ⟨-, hr⟩ := h
                        subst hr
                        exact .expr _
                      · rw [if_neg hv2] at h
                        simp only [Prod.mk.injEq, Except.ok.injEq] at h
                        obtain ⟨-, hr⟩ := h
                        subst hr
                        exact .expr _
      | pi nm dom body =>
        simp only [normalize, hsh] at h
        split at h
        · simp at h
        · split at h
          · simp at h
          · simp only [Bool.false_eq_true, if_false] at h
            rcases h1 : normalize cfg m dom s k (d+1) st with ⟨stA, r1⟩
            rw [h1] at h
            cases r1 with
            | error er => simp at h
            | ok vd =>
              simp only at h
              rcases h2 : reify cfg m vd k (d+1) stA with ⟨stB, r2⟩
              rw [h2] at h
              cases r2 with
              | error er => simp at h
              | ok td =>
                simp only at h
                rcases h3 : normalize cfg m body (.bvar k :: s) (k+1) (d+1) (pushScope stB) with
                  ⟨stC, r3⟩
                rw [h3] at h
                cases r3 with
                | error er => simp at h
                | ok vb =>
                  simp only at h
                  rcases h4 : reify cfg m vb (k+1) (d+1) stC with ⟨stD, r4⟩
                  rw [h4] at h
                  cases r4 with
                  | error er => simp at h
                  | ok tb =>
                    simp only [Prod.mk.injEq, Except.ok.injEq] at h
                    obtain ⟨-, hr⟩ := h
                    subst hr
                    exact .expr _
      | letE nm vv body =>
        simp only [normalize, hsh] at h
        split at h
        · simp at h
        · split at h
          · simp at h
          · simp only [Bool.false_eq_true, if_false] at h
            rcases h1 : normalize cfg m vv s k (d+1) st with ⟨stA, r1⟩
            rw [h1] at h
            cases r1 with
            | error er => simp at h
            | ok v1 =>
              simp only at h
              have hfv2 : fvLe vv s.length = true ∧ fvLe body (s.length+1) = true := by
                simpa [fvLe] using hfv
              have hv1 : SvWf v1 := ihn vv s k (d+1) st stA v1 hwf hfv2.1 h1
              rcases h2 : normalize cfg m body (v1 :: s) (k+1) (d+1) (pushScope stA) with
                ⟨stB, r2⟩
              rw [h2] at h
              cases r2 with
              | error er => simp at h
              | ok v2 =>
                simp only [Prod.mk.injEq, Except.ok.injEq] at h
                obtain ⟨-, hr⟩ := h
                subst hr
                refine ihn body (v1 :: s) (k+1) (d+1) (pushScope stA) stB v2
                  (.cons v1 s hv1 hwf) ?_ h2
                simpa using hfv2.2
    · -- normApp
      intro fv args s k d st st2 r hwfF hwf hargs h
      cases hwfF with
      | expr e =>
        simp only [normApp] at h
        rcases h1 : reify cfg m (.expr e) k d st with ⟨stA, r1⟩
        rw [h1] at h
        cases r1 with
        | error er => simp at h
        | ok nf =>
          simp only at h
          rcases h2 : normReifyArgs cfg m args s k d stA with ⟨stB, r2⟩
          rw [h2] at h
          cases r2 with
          | error er => simp at h
          | ok nargs =>
            simp only at h
            cases nf with
            | value pv =>
              simp only at h
              cases h3 : cfg.env.valNorm pv (Expr.value pv :: nargs) with
              | none =>
                rw [h3] at h
                simp only [Prod.mk.injEq, Except.ok.injEq] at h
                obtain ⟨-, hr⟩ := h
                subst hr
                exact .expr _
              | some mm =>
                rw [h3] at h
                refine ihn mm s k d stB st2 r hwf ?_ h
                exact fvLe_mono mm 0 s.length (henv.2 pv _ mm h3) (by omega)
            | var i =>
              simp only [Prod.mk.injEq, Except.ok.injEq] at h
              obtain ⟨-, hr⟩ := h
              subst hr
              exact .expr _
            | const n =>
              simp only [Prod.mk.injEq, Except.ok.injEq] at h
              obtain ⟨-, hr⟩ := h
              subst hr
              exact .expr _
            | type u =>
              simp only [Prod.mk.injEq, Except.ok.injEq] at h
              obtain ⟨-, hr⟩ := h
              subst hr
              exact .expr _
            | app f2 args2 =>
              simp only [Prod.mk.injEq, Except.ok.injEq] at h
              obtain ⟨-, hr⟩ := h
              subst hr
              exact .expr _
            | eq l2 r2 =>
              simp only [Prod.mk.injEq, Except.ok.injEq] at h
              obtain ⟨-, hr⟩ := h
              subst hr
              exact .expr _
            | lam nm2 d2 b2 =>
              simp only [Prod.mk.injEq, Except.ok.injEq] at h
              obtain ⟨-, hr⟩ := h
              subst hr
              exact .expr _
            | pi nm2 d2 b2 =>
              simp only [Prod.mk.injEq, Except.ok.injEq] at h
              obtain ⟨-, hr⟩ := h
              subst hr
              exact .expr _
            | letE nm2 d2 b2 =>
              simp only [Prod.mk.injEq, Except.ok.injEq] at h
              obtain ⟨-, hr⟩ := h
              subst hr
              exact .expr _
      | closure nm dom body stk hfvC hwfC =>
        cases args with
        | nil =>
          simp only [normApp, Prod.mk.injEq, Except.ok.injEq] at h
          obtain ⟨-, hr⟩ := h
          subst hr
          exact .closure nm dom body stk hfvC hwfC
        | cons a rest =>
          simp only [normApp] at h
          rcases h1 : normalize cfg m a s k d (pushScope st) with ⟨stA, r1⟩
          rw [h1] at h
          cases r1 with
          | error er => simp at h
          | ok v =>
            simp only at h
            have hargs2 : fvLe a s.length = true ∧ fvLe.go rest s.length = true := by
              simpa [fvLe.go] using hargs
            have hvwf : SvWf v := ihn a s k d (pushScope st) stA v hwf hargs2.1 h1
            have hfvB : fvLe (abstBody (.lam nm dom body)) (stk.length + 1) = true := by
              have := hfvC
              simp only [fvLe, Bool.and_eq_true] at this
              simpa [abstBody] using this.2
            rcases h2 : normalize cfg m (abstBody (.lam nm dom body)) (v :: stk) k d stA with
              ⟨stB, r2⟩
            rw [h2] at h
            cases r2 with
            | error er => simp at h
            | ok f2 =>
              simp only at h
              have hf2 : SvWf f2 := by
                refine ihn (abstBody (.lam nm dom body)) (v :: stk) k d stA stB f2
                  (.cons v stk hvwf hwfC) ?_ h2
                simpa using hfvB
              cases rest with
              | nil =>
                simp only [Prod.mk.injEq, Except.ok.injEq] at h
                obtain ⟨-, hr⟩ := h
                subst hr
                exact hf2
              | cons b2 rest2 =>
                exact iha f2 (b2 :: rest2) s k d (popScope stB) st2 r hf2 hwf hargs2.2 h
    · -- lookup
      intro s i k d st st2 r hwf hlt h
      cases s with
      | nil => simp at hlt
      | cons v t =>
        cases i with
        | zero =>
          simp only [lookup, Prod.mk.injEq, Except.ok.injEq] at h
          obtain ⟨-, hr⟩ := h
          subst hr
          cases hwf with
          | cons _ _ hv _ => exact hv
        | succ i2 =>
          simp only [lookup] at h
          cases hwf with
          | cons _ _ _ ht =>
            refine ihl t i2 k d st st2 r ht ?_ h
            simpa using Nat.lt_of_succ_lt_succ hlt

end KN


namespace KN

/-- Two runs of the normalizer on the same closed-over-its-stack expression,
over pointwise-corresponding stacks at binder offset `c`, in a sharing-free
instance of a closed environment, produce corresponding results — regardless
of their recursion depths, their fuels, their caches and their ambient
contexts.  The five conjuncts cover `normalize`, the application loop, the
argument reification loop, `reify` and `lookup`.  Fuel induction on the first
run. -/
theorem shiftRel (cfg : NormCfg) (hsh : ∀ x, cfg.shared x = false)
    (henv : EnvClosed cfg.env) : ∀ f1 : Nat,
    (∀ (f2 : Nat) (e : Expr) (s1 s2 : List SValue) (k2 c d1 d2 : Nat)
      (stA stB stA2 stB2 : NormState) (r1 r2 : SValue),
      SvRelList c s1 s2 → fvLe e s2.length = true →
      normalize cfg f1 e s1 (k2 + c) d1 stA = (stA2, .ok r1) →
      normalize cfg f2 e s2 k2 d2 stB = (stB2, .ok r2) →
      SvRel c r1 r2) ∧
    (∀ (f2 : Nat) (fv1 fv2 : SValue) (args : List Expr) (s1 s2 : List SValue) (k2 c d1 d2 : Nat)
      (stA stB stA2 stB2 : NormState) (r1 r2 : SValue),
      SvRel c fv1 fv2 → SvRelList c s1 s2 → fvLe.go args s2.length = true →
      normApp cfg f1 fv1 args s1 (k2 + c) d1 stA = (stA2, .ok r1) →
      normApp cfg f2 fv2 args s2 k2 d2 stB = (stB2, .ok r2) →
      SvRel c r1 r2) ∧
    (∀ (f2 : Nat) (args : List Expr) (s1 s2 : List SValue) (k2 c d1 d2 : Nat)
      (stA stB stA2 stB2 : NormState) (r1 r2 : List Expr),
      SvRelList c s1 s2 → fvLe.go args s2.length = true →
      normReifyArgs cfg f1 args s1 (k2 + c) d1 stA = (stA2, .ok r1) →
      normReifyArgs cfg f2 args s2 k2 d2 stB = (stB2, .ok r2) →
      r1 = r2) ∧
    (∀ (f2 : Nat) (v1 v2 : SValue) (k2 c d1 d2 : Nat)
      (stA stB stA2 stB2 : NormState) (e1 e2 : Expr),
      SvRel c v1 v2 →
      reify cfg f1 v1 (k2 + c) d1 stA = (stA2, .ok e1) →
      reify cfg f2 v2 k2 d2 stB = (stB2, .ok e2) →
      e1 = e2) ∧
    (∀ (f2 : Nat) (s1 s2 : List SValue) (i k1 k2b c d1 d2 : Nat)
      (stA stB stA2 stB2 : NormState) (r1 r2 : SValue),
      SvRelList c s1 s2 → i < s2.length →
      lookup cfg f1 s1 i k1 d1 stA = (stA2, .ok r1) →
      lookup cfg f2 s2 i k2b d2 stB = (stB2, .ok r2) →
      SvRel c r1 r2) := by
  intro f1
  induction f1 with
  | zero =>
    refine ⟨?_, ?_, ?_, ?_, ?_⟩
    · intro f2 e s1 s2 k2 c d1 d2 stA stB stA2 stB2 r1 r2 _ _ h1 _
      simp [normalize] at h1
    · intro f2 fv1 fv2 args s1 s2 k2 c d1 d2 stA stB stA2 stB2 r1 r2 _ _ _ h1 _
      simp [normApp] at h1
    · intro f2 args s1 s2 k2 c d1 d2 stA stB stA2 stB2 r1 r2 _ _ h1 _
      simp [normReifyArgs] at h1
    · intro f2 v1 v2 k2 c d1 d2 stA stB stA2 stB2 e1 e2 _ h1 _
      simp [reify] at h1
    · intro f2 s1 s2 i k1 k2b c d1 d2 stA stB stA2 stB2 r1 r2 _ _ h1 _
      simp [lookup] at h1
  | succ m1 ih =>
    obtain ⟨ihn, iha, ihg, ihr, ihl⟩ := ih
    refine ⟨?_, ?_, ?_, ?_, ?_⟩
    · -- normalize
      intro f2 e s1 s2 k2 c d1 d2 stA stB stA2 stB2 r1 r2 hrel hfv h1 h2
      cases f2 with
      | zero => simp [normalize] at h2
      | succ m2 =>
      cases e with
      | var i =>
        simp only [normalize, hsh] at h1 h2
        split at h1
        · simp at h1
        · split at h1
          · simp at h1
          · split at h2
            · simp at h2
            · split at h2
              · simp at h2
              · simp only [Bool.false_eq_true, if_false] at h1 h2
                rcases hx1 : lookup cfg m1 s1 i (k2 + c) (d1+1) stA with ⟨stX, rr1⟩
                rw [hx1] at h1
                cases rr1 with
                | error er => simp at h1
                | ok v1 =>
                  rcases hx2 : lookup cfg m2 s2 i k2 (d2+1) stB with ⟨stY, rr2⟩
                  rw [hx2] at h2
                  cases rr2 with
                  | error er => simp at h2
                  | ok v2 =>
                    simp only [Prod.mk.injEq, Except.ok.injEq] at h1 h2
                    obtain ⟨-, hr1⟩ := h1
                    obtain ⟨-, hr2⟩ := h2
                    subst hr1
                    subst hr2
                    refine ihl m2 s1 s2 i (k2 + c) k2 c (d1+1) (d2+1) stA stB stX stY v1 v2
                      hrel ?_ hx1 hx2
                    simpa [fvLe] using hfv
      | const n =>
        simp only [normalize, hsh] at h1 h2
        split at h1
        · simp at h1
        · split at h1
          · simp at h1
          · split at h2
            · simp at h2
            · split at h2
              · simp at h2
              · simp only [Bool.false_eq_true, if_false] at h1 h2
                cases hobj : cfg.env.getObject n with
                | none => rw [hobj] at h1; simp at h1
                | some obj =>
                  rw [hobj] at h1 h2
                  cases obj with
                  | other =>
                    simp only [Prod.mk.injEq, Except.ok.injEq] at h1 h2
                    obtain ⟨-, hr1⟩ := h1
                    obtain ⟨-, hr2⟩ := h2
                    subst hr1
                    subst hr2
                    exact .expr _
                  | defn opq v =>
                    cases opq with
                    | true =>
                      simp only [if_true, Prod.mk.injEq, Except.ok.injEq] at h1 h2
                      obtain ⟨-, hr1⟩ := h1
                      obtain ⟨-, hr2⟩ := h2
                      subst hr1
                      subst hr2
                      exact .expr _
                    | false =>
                      simp only [Bool.false_eq_true, if_false] at h1 h2
                      rcases hx1 : normalize cfg m1 v [] 0 (d1+1) stA with ⟨stX, rr1⟩
                      rw [hx1] at h1
                      cases rr1 with
                      | error er => simp at h1
                      | ok v1 =>
                        rcases hx2 : normalize cfg m2 v [] 0 (d2+1) stB with ⟨stY, rr2⟩
                        rw [hx2] at h2
                        cases rr2 with
                        | error er => simp at h2
                        | ok v2 =>
                          simp only [Prod.mk.injEq, Except.ok.injEq] at h1 h2
                          obtain ⟨-, hr1⟩ := h1
                          obtain ⟨-, hr2⟩ := h2
                          subst hr1
                          subst hr2
                          have hv0 : fvLe v 0 = true := henv.1 n v hobj
                          have heq : v1 = v2 := svRel_zero_eq
                            (ihn m2 v [] [] 0 0 (d1+1) (d2+1) stA stB stX stY v1 v2 .nil hv0
                              hx1 hx2)
                          have hwf2 : SvWf v2 :=
                            (svWf_preservation cfg hsh henv m2).1 v [] 0 (d2+1) stB stY v2
                              .nil hv0 hx2
                          rw [heq]
                          exact svWf_rel c hwf2
      | type u =>
        simp only [normalize, hsh] at h1 h2
        split at h1
        · simp at h1
        · split at h1
          · simp at h1
          · split at h2
            · simp at h2
            · split at h2
              · simp at h2
              · simp only [Bool.false_eq_true, if_false, Prod.mk.injEq, Except.ok.injEq] at h1 h2
                obtain ⟨-, hr1⟩ := h1
                obtain ⟨-, hr2⟩ := h2
                subst hr1
                subst hr2
                exact .expr _
      | value pv =>
        simp only [normalize, hsh] at h1 h2
        split at h1
        · simp at h1
        · split at h1
          · simp at h1
          · split at h2
            · simp at h2
            · split at h2
              · simp at h2
              · simp only [Bool.false_eq_true, if_false, Prod.mk.injEq, Except.ok.injEq] at h1 h2
                obtain ⟨-, hr1⟩ := h1
                obtain ⟨-, hr2⟩ := h2
                subst hr1
                subst hr2
                exact .expr _
      | lam nm dom body =>
        simp only [normalize, hsh] at h1 h2
        split at h1
        · simp at h1
        · split at h1
          · simp at h1
          · split at h2
            · simp at h2
            · split at h2
              · simp at h2
              · simp only [Bool.false_eq_true, if_false, Prod.mk.injEq, Except.ok.injEq] at h1 h2
                obtain ⟨-, hr1⟩ := h1
                obtain ⟨-, hr2⟩ := h2
                subst hr1
                subst hr2
                exact .closure nm dom body s1 s2 hfv hrel
      | app f args =>
        simp only [normalize, hsh] at h1 h2
        split at h1
        · simp at h1
        · split at h1
          · simp at h1
          · split at h2
            · simp at h2
            · split at h2
              · simp at h2
              · simp only [Bool.false_eq_true, if_false] at h1 h2
                rcases hx1 : normalize cfg m1 f s1 (k2 + c) (d1+1) stA with ⟨stX, rr1⟩
                rw [hx1] at h1
                cases rr1 with
                | error er => simp at h1
                | ok fv1 =>
                  simp only at h1
                  rcases hx2 : normalize cfg m2 f s2 k2 (d2+1) stB with ⟨stY, rr2⟩
                  rw [hx2] at h2
                  cases rr2 with
                  | error er => simp at h2
                  | ok fv2 =>
                    simp only at h2
                    have hfv2 : fvLe f s2.length = true ∧ fvLe.go args s2.length = true := by
                      simpa [fvLe] using hfv
                    have hrelF : SvRel c fv1 fv2 :=
                      ihn m2 f s1 s2 k2 c (d1+1) (d2+1) stA stB stX stY fv1 fv2 hrel hfv2.1
                        hx1 hx2
                    rcases hy1 : normApp cfg m1 fv1 args s1 (k2 + c) (d1+1) stX with ⟨stX2, rr12⟩
                    rw [hy1] at h1
                    cases rr12 with
                    | error er => simp at h1
                    | ok w1 =>
                      rcases hy2 : normApp cfg m2 fv2 args s2 k2 (d2+1) stY with ⟨stY2, rr22⟩
                      rw [hy2] at h2
                      cases rr22 with
                      | error er => simp at h2
                      | ok w2 =>
                        simp only [Prod.mk.injEq, Except.ok.injEq] at h1 h2
                        obtain ⟨-, hr1⟩ := h1
                        obtain ⟨-, hr2⟩ := h2
                        subst hr1
                        subst hr2
                        exact iha m2 fv1 fv2 args s1 s2 k2 c (d1+1) (d2+1) stX stY stX2 stY2
                          w1 w2 hrelF hrel hfv2.2 hy1 hy2
      | eq l rre =>
        simp only [normalize, hsh] at h1 h2
        split at h1
        · simp at h1
        · split at h1
          · simp at h1
          · split at h2
            · simp at h2
            · split at h2
              · simp at h2
              · simp only [Bool.false_eq_true, if_false] at h1 h2
                rcases ha1 : normalize cfg m1 l s1 (k2 + c) (d1+1) stA with ⟨sA1, q1⟩
                rw [ha1] at h1
                cases q1 with
                | error er => simp at h1
                | ok vl1 =>
                  simp only at h1
                  rcases hb1 : reify cfg m1 vl1 (k2 + c) (d1+1) sA1 with ⟨sB1, q2⟩
                  rw [hb1] at h1
                  cases q2 with
                  | error er => simp at h1
                  | ok el1 =>
                    simp only at h1
                    rcases hc1 : normalize cfg m1 rre s1 (k2 + c) (d1+1) sB1 with ⟨sC1, q3⟩
                    rw [hc1] at h1
                    cases q3 with
                    | error er => simp at h1
                    | ok vr1 =>
                      simp only at h1
                      rcases hd1 : reify cfg m1 vr1 (k2 + c) (d1+1) sC1 with ⟨sD1, q4⟩
                      rw [hd1] at h1
                      cases q4 with
                      | error er => simp at h1
                      | ok er21 =>
                        simp only at h1
                        rcases ha2 : normalize cfg m2 l s2 k2 (d2+1) stB with ⟨sA2, p1⟩
                        rw [ha2] at h2
                        cases p1 with
                        | error er => simp at h2
                        | ok vl2 =>
                          simp only at h2
                          rcases hb2 : reify cfg m2 vl2 k2 (d2+1) sA2 with ⟨sB2, p2⟩
                          rw [hb2] at h2
                          cases p2 with
                          | error er => simp at h2
                          | ok el2 =>
                            simp only at h2
                            rcases hc2 : normalize cfg m2 rre s2 k2 (d2+1) sB2 with ⟨sC2, p3⟩
                            rw [hc2] at h2
                            cases p3 with
                            | error er => simp at h2
                            | ok vr2 =>
                              simp only at h2
                              rcases hd2 : reify cfg m2 vr2 k2 (d2+1) sC2 with ⟨sD2, p4⟩
                              rw [hd2] at h2
                              cases p4 with
                              | error er => simp at h2
                              | ok er22 =>
                                simp only at h2
                                have hfvlr : fvLe l s2.length = true ∧
                                    fvLe rre s2.length = true := by
                                  simpa [fvLe] using hfv
                                have hrl : SvRel c vl1 vl2 :=
                                  ihn m2 l s1 s2 k2 c (d1+1) (d2+1) stA stB sA1 sA2 vl1 vl2
                                    hrel hfvlr.1 ha1 ha2
                                have hel : el1 = el2 :=
                                  ihr m2 vl1 vl2 k2 c (d1+1) (d2+1) sA1 sA2 sB1 sB2 el1 el2
                                    hrl hb1 hb2
                                have hrr : SvRel c vr1 vr2 :=
                                  ihn m2 rre s1 s2 k2 c (d1+1) (d2+1) sB1 sB2 sC1 sC2 vr1 vr2
                                    hrel hfvlr.2 hc1 hc2
                                have her : er21 = er22 :=
                                  ihr m2 vr1 vr2 k2 c (d1+1) (d2+1) sC1 sC2 sD1 sD2 er21 er22
                                    hrr hd1 hd2
                                subst hel
                                subst her
                                by_cases hcnd : el1 = er21
                                · rw [if_pos hcnd] at h1 h2
                                  simp only [Prod.mk.injEq, Except.ok.injEq] at h1 h2
                                  obtain ⟨-, hr1⟩ := h1
                                  obtain ⟨-, hr2⟩ := h2
                                  subst hr1
                                  subst hr2
                                  exact .expr _
                                · rw [if_neg hcnd] at h1 h2
                                  by_cases hcnd2 : (isValueE el1 && isValueE er21) = true
                                  · rw [if_pos hcnd2] at h1 h2
                                    simp only [Prod.mk.injEq, Except.ok.injEq] at h1 h2
                                    obtain ⟨-, hr1⟩ := h1
                                    obtain ⟨-, hr2⟩ := h2
                                    subst hr1
                                    subst hr2
                                    exact .expr _
                                  · rw [if_neg hcnd2] at h1 h2
                                    simp only [Prod.mk.injEq, Except.ok.injEq] at h1 h2
                                    obtain ⟨-, hr1⟩ := h1
                                    obtain ⟨-, hr2⟩ := h2
                                    subst hr1
                                    subst hr2
                                    exact .expr _
      | pi nm dom body =>
        simp only [normalize, hsh] at h1 h2
        split at h1
        · simp at h1
        · split at h1
          · simp at h1
          · split at h2
            · simp at h2
            · split at h2
              · simp at h2
              · simp only [Bool.false_eq_true, if_false] at h1 h2
                rcases ha1 : normalize cfg m1 dom s1 (k2 + c) (d1+1) stA with ⟨sA1, q1⟩
                rw [ha1] at h1
                cases q1 with
                | error er => simp at h1
                | ok vd1 =>
                  simp only at h1
                  rcases hb1 : reify cfg m1 vd1 (k2 + c) (d1+1) sA1 with ⟨sB1, q2⟩
                  rw [hb1] at h1
                  cases q2 with
                  | error er => simp at h1
                  | ok td1 =>
                    simp only at h1
                    rcases hc1 : normalize cfg m1 body (.bvar (k2 + c) :: s1) (k2 + c + 1)
                        (d1+1) (pushScope sB1) with ⟨sC1, q3⟩
                    rw [hc1] at h1
                    cases q3 with
                    | error er => simp at h1
                    | ok vb1 =>
                      simp only at h1
                      rcases hd1 : reify cfg m1 vb1 (k2 + c + 1) (d1+1) sC1 with ⟨sD1, q4⟩
                      rw [hd1] at h1
                      cases q4 with
                      | error er => simp at h1
                      | ok tb1 =>
                        simp only at h1
                        rcases ha2 : normalize cfg m2 dom s2 k2 (d2+1) stB with ⟨sA2, p1⟩
                        rw [ha2] at h2
                        cases p1 with
                        | error er => simp at h2
                        | ok vd2 =>
                          simp only at h2
                          rcases hb2 : reify cfg m2 vd2 k2 (d2+1) sA2 with ⟨sB2, p2⟩
                          rw [hb2] at h2
                          cases p2 with
                          | error er => simp at h2
                          | ok td2 =>
                            simp only at h2
                            rcases hc2 : normalize cfg m2 body (.bvar k2 :: s2) (k2 + 1)
                                (d2+1) (pushScope sB2) with ⟨sC2, p3⟩
                            rw [hc2] at h2
                            cases p3 with
                            | error er => simp at h2
                            | ok vb2 =>
                              simp only at h2
                              rcases hd2 : reify cfg m2 vb2 (k2 + 1) (d2+1) sC2 with ⟨sD2, p4⟩
                              rw [hd2] at h2
                              cases p4 with
                              | error er => simp at h2
                              | ok tb2 =>
                                simp only at h2
                                have hfvdb : fvLe dom s2.length = true ∧
                                    fvLe body (s2.length + 1) = true := by
                                  simpa [fvLe] using hfv
                                have hrd : SvRel c vd1 vd2 :=
                                  ihn m2 dom s1 s2 k2 c (d1+1) (d2+1) stA stB sA1 sA2 vd1 vd2
                                    hrel hfvdb.1 ha1 ha2
                                have htd : td1 = td2 :=
                                  ihr m2 vd1 vd2 k2 c (d1+1) (d2+1) sA1 sA2 sB1 sB2 td1 td2
                                    hrd hb1 hb2
                                have hk : k2 + c + 1 = (k2 + 1) + c := by omega
                                rw [hk] at hc1 hd1
                                have hrelb : SvRelList c (.bvar (k2 + c) :: s1)
                                    (.bvar k2 :: s2) :=
                                  .cons _ _ _ _ (.bvar k2) hrel
                                have hrb : SvRel c vb1 vb2 :=
                                  ihn m2 body (.bvar (k2 + c) :: s1) (.bvar k2 :: s2) (k2 + 1) c
                                    (d1+1) (d2+1) (pushScope sB1) (pushScope sB2) sC1 sC2 vb1 vb2
                                    hrelb (by simpa using hfvdb.2) hc1 hc2
                                have htb : tb1 = tb2 :=
                                  ihr m2 vb1 vb2 (k2 + 1) c (d1+1) (d2+1) sC1 sC2 sD1 sD2 tb1 tb2
                                    hrb hd1 hd2
                                simp only [Prod.mk.injEq, Except.ok.injEq] at h1 h2
                                obtain ⟨-, hr1⟩ := h1
                                obtain ⟨-, hr2⟩ := h2
                                subst hr1
                                subst hr2
                                rw [htd, htb]
                                exact .expr _
      | letE nm vv body =>
        simp only [normalize, hsh] at h1 h2
        split at h1
        · simp at h1
        · split at h1
          · simp at h1
          · split at h2
            · simp at h2
            · split at h2
              · simp at h2
              · simp only [Bool.false_eq_true, if_false] at h1 h2
                rcases ha1 : normalize cfg m1 vv s1 (k2 + c) (d1+1) stA with ⟨sA1, q1⟩
                rw [ha1] at h1
                cases q1 with
                | error er => simp at h1
                | ok w1 =>
                  simp only at h1
                  rcases hb1 : normalize cfg m1 body (w1 :: s1) (k2 + c + 1) (d1+1)
                      (pushScope sA1) with ⟨sB1, q2⟩
                  rw [hb1] at h1
                  cases q2 with
                  | error er => simp at h1
                  | ok w12 =>
                    simp only at h1
                    rcases ha2 : normalize cfg m2 vv s2 k2 (d2+1) stB with ⟨sA2, p1⟩
                    rw [ha2] at h2
                    cases p1 with
                    | error er => simp at h2
                    | ok w2 =>
                      simp only at h2
                      rcases hb2 : normalize cfg m2 body (w2 :: s2) (k2 + 1) (d2+1)
                          (pushScope sA2) with ⟨sB2, p2⟩
                      rw [hb2] at h2
                      cases p2 with
                      | error er => simp at h2
                      | ok w22 =>
                        simp only [Prod.mk.injEq, Except.ok.injEq] at h1 h2
                        obtain ⟨-, hr1⟩ := h1
                        obtain ⟨-, hr2⟩ := h2
                        subst hr1
                        subst hr2
                        have hfvvb : fvLe vv s2.length = true ∧
                            fvLe body (s2.length + 1) = true := by
                          simpa [fvLe] using hfv
                        have hrv : SvRel c w1 w2 :=
                          ihn m2 vv s1 s2 k2 c (d1+1) (d2+1) stA stB sA1 sA2 w1 w2 hrel
                            hfvvb.1 ha1 ha2
                        have hk : k2 + c + 1 = (k2 + 1) + c := by omega
                        rw [hk] at hb1
                        exact ihn m2 body (w1 :: s1) (w2 :: s2) (k2 + 1) c (d1+1) (d2+1)
                          (pushScope sA1) (pushScope sA2) sB1 sB2 w12 w22
                          (.cons _ _ _ _ hrv hrel) (by simpa using hfvvb.2) hb1 hb2
    · -- normApp
      intro f2 fv1 fv2 args s1 s2 k2 c d1 d2 stA stB stA2 stB2 r1 r2 hrelF hrel hargs h1 h2
      cases f2 with
      | zero => simp [normApp] at h2
      | succ m2 =>
      cases hrelF with
      | expr e0 =>
        simp only [normApp] at h1 h2
        rcases ha1 : reify cfg m1 (SValue.expr e0) (k2 + c) d1 stA with ⟨sA1, q1⟩
        rw [ha1] at h1
        cases q1 with
        | error er => simp at h1
        | ok nf1 =>
          simp only at h1
          rcases hg1 : normReifyArgs cfg m1 args s1 (k2 + c) d1 sA1 with ⟨sB1, q2⟩
          rw [hg1] at h1
          cases q2 with
          | error er => simp at h1
          | ok nargs1 =>
            simp only at h1
            rcases ha2 : reify cfg m2 (SValue.expr e0) k2 d2 stB with ⟨sA2, p1⟩
            rw [ha2] at h2
            cases p1 with
            | error er => simp at h2
            | ok nf2 =>
              simp only at h2
              rcases hg2 : normReifyArgs cfg m2 args s2 k2 d2 sA2 with ⟨sB2, p2⟩
              rw [hg2] at h2
              cases p2 with
              | error er => simp at h2
              | ok nargs2 =>
                simp only at h2
                have hnf : nf1 = nf2 :=
                  ihr m2 (SValue.expr e0) (SValue.expr e0) k2 c d1 d2 stA stB sA1 sA2 nf1 nf2
                    (.expr e0) ha1 ha2
                have hna : nargs1 = nargs2 :=
                  ihg m2 args s1 s2 k2 c d1 d2 sA1 sA2 sB1 sB2 nargs1 nargs2 hrel hargs hg1 hg2
                subst hnf
                subst hna
                cases nf1 with
                | value pv =>
                  simp only at h1 h2
                  cases h3 : cfg.env.valNorm pv (Expr.value pv :: nargs1) with
                  | none =>
                    rw [h3] at h1 h2
                    simp only [Prod.mk.injEq, Except.ok.injEq] at h1 h2
                    obtain ⟨-, hr1⟩ := h1
                    obtain ⟨-, hr2⟩ := h2
                    subst hr1
                    subst hr2
                    exact .expr _
                  | some mm =>
                    rw [h3] at h1 h2
                    exact ihn m2 mm s1 s2 k2 c d1 d2 sB1 sB2 stA2 stB2 r1 r2 hrel
                      (fvLe_mono mm 0 s2.length (henv.2 pv _ mm h3) (by omega)) h1 h2
                | var i2x =>
                  simp only [Prod.mk.injEq, Except.ok.injEq] at h1 h2
                  obtain ⟨-, hr1⟩ := h1
                  obtain ⟨-, hr2⟩ := h2
                  subst hr1
                  subst hr2
                  exact .expr _
                | const n2x =>
                  simp only [Prod.mk.injEq, Except.ok.injEq] at h1 h2
                  obtain ⟨-, hr1⟩ := h1
                  obtain ⟨-, hr2⟩ := h2
                  subst hr1
                  subst hr2
                  exact .expr _
                | type u2x =>
                  simp only [Prod.mk.injEq, Except.ok.injEq] at h1 h2
                  obtain ⟨-, hr1⟩ := h1
                  obtain ⟨-, hr2⟩ := h2
                  subst hr1
                  subst hr2
                  exact .expr _
                | app f2x args2x =>
                  simp only [Prod.mk.injEq, Except.ok.injEq] at h1 h2
                  obtain ⟨-, hr1⟩ := h1
                  obtain ⟨-, hr2⟩ := h2
                  subst hr1
                  subst hr2
                  exact .expr _
                | eq l2x r2x =>
                  simp only [Prod.mk.injEq, Except.ok.injEq] at h1 h2
                  obtain ⟨-, hr1⟩ := h1
                  obtain ⟨-, hr2⟩ := h2
                  subst hr1
                  subst hr2
                  exact .expr _
                | lam nm2x d2x b2x =>
                  simp only [Prod.mk.injEq, Except.ok.injEq] at h1 h2
                  obtain ⟨-, hr1⟩ := h1
                  obtain ⟨-, hr2⟩ := h2
                  subst hr1
                  subst hr2
                  exact .expr _
                | pi nm2x d2x b2x =>
                  simp only [Prod.mk.injEq, Except.ok.injEq] at h1 h2
                  obtain ⟨-, hr1⟩ := h1
                  obtain ⟨-, hr2⟩ := h2
                  subst hr1
                  subst hr2
                  exact .expr _
                | letE nm2x d2x b2x =>
                  simp only [Prod.mk.injEq, Except.ok.injEq] at h1 h2
                  obtain ⟨-, hr1⟩ := h1
                  obtain ⟨-, hr2⟩ := h2
                  subst hr1
                  subst hr2
                  exact .expr _
      | bvar j =>
        simp only [normApp] at h1 h2
        rcases ha1 : reify cfg m1 (SValue.bvar (j + c)) (k2 + c) d1 stA with ⟨sA1, q1⟩
        rw [ha1] at h1
        cases q1 with
        | error er => simp at h1
        | ok nf1 =>
          simp only at h1
          rcases hg1 : normReifyArgs cfg m1 args s1 (k2 + c) d1 sA1 with ⟨sB1, q2⟩
          rw [hg1] at h1
          cases q2 with
          | error er => simp at h1
          | ok nargs1 =>
            simp only at h1
            rcases ha2 : reify cfg m2 (SValue.bvar j) k2 d2 stB with ⟨sA2, p1⟩
            rw [ha2] at h2
            cases p1 with
            | error er => simp at h2
            | ok nf2 =>
              simp only at h2
              rcases hg2 : normReifyArgs cfg m2 args s2 k2 d2 sA2 with ⟨sB2, p2⟩
              rw [hg2] at h2
              cases p2 with
              | error er => simp at h2
              | ok nargs2 =>
                simp only at h2
                have hnf : nf1 = nf2 :=
                  ihr m2 (SValue.bvar (j + c)) (SValue.bvar j) k2 c d1 d2 stA stB sA1 sA2 nf1 nf2
                    (.bvar j) ha1 ha2
                have hna : nargs1 = nargs2 :=
                  ihg m2 args s1 s2 k2 c d1 d2 sA1 sA2 sB1 sB2 nargs1 nargs2 hrel hargs hg1 hg2
                subst hnf
                subst hna
                cases nf1 with
                | value pv =>
                  simp only at h1 h2
                  cases h3 : cfg.env.valNorm pv (Expr.value pv :: nargs1) with
                  | none =>
                    rw [h3] at h1 h2
                    simp only [Prod.mk.injEq, Except.ok.injEq] at h1 h2
                    obtain ⟨-, hr1⟩ := h1
                    obtain ⟨-, hr2⟩ := h2
                    subst hr1
                    subst hr2
                    exact .expr _
                  | some mm =>
                    rw [h3] at h1 h2
                    exact ihn m2 mm s1 s2 k2 c d1 d2 sB1 sB2 stA2 stB2 r1 r2 hrel
                      (fvLe_mono mm 0 s2.length (henv.2 pv _ mm h3) (by omega)) h1 h2
                | var i2x =>
                  simp only [Prod.mk.injEq, Except.ok.injEq] at h1 h2
                  obtain ⟨-, hr1⟩ := h1
                  obtain ⟨-, hr2⟩ := h2
                  subst hr1
                  subst hr2
                  exact .expr _
                | const n2x =>
                  simp only [Prod.mk.injEq, Except.ok.injEq] at h1 h2
                  obtain ⟨-, hr1⟩ := h1
                  obtain ⟨-, hr2⟩ := h2
                  subst hr1
                  subst hr2
                  exact .expr _
                | type u2x =>
                  simp only [Prod.mk.injEq, Except.ok.injEq] at h1 h2
                  obtain ⟨-, hr1⟩ := h1
                  obtain ⟨-, hr2⟩ := h2
                  subst hr1
                  subst hr2
                  exact .expr _
                | app f2x args2x =>
                  simp only [Prod.mk.injEq, Except.ok.injEq] at h1 h2
                  obtain ⟨-, hr1⟩ := h1
                  obtain ⟨-, hr2⟩ := h2
                  subst hr1
                  subst hr2
                  exact .expr _
                | eq l2x r2x =>
                  simp only [Prod.mk.injEq, Except.ok.injEq] at h1 h2
                  obtain ⟨-, hr1⟩ := h1
                  obtain ⟨-, hr2⟩ := h2
                  subst hr1
                  subst hr2
                  exact .expr _
                | lam nm2x d2x b2x =>
                  simp only [Prod.mk.injEq, Except.ok.injEq] at h1 h2
                  obtain ⟨-, hr1⟩ := h1
                  obtain ⟨-, hr2⟩ := h2
                  subst hr1
                  subst hr2
                  exact .expr _
                | pi nm2x d2x b2x =>
                  simp only [Prod.mk.injEq, Except.ok.injEq] at h1 h2
                  obtain ⟨-, hr1⟩ := h1
                  obtain ⟨-, hr2⟩ := h2
                  subst hr1
                  subst hr2
                  exact .expr _
                | letE nm2x d2x b2x =>
                  simp only [Prod.mk.injEq, Except.ok.injEq] at h1 h2
                  obtain ⟨-, hr1⟩ := h1
                  obtain ⟨-, hr2⟩ := h2
                  subst hr1
                  subst hr2
                  exact .expr _
      | closure nm dom body s1c s2c hfvC hrelC =>
        cases args with
        | nil =>
          simp only [normApp, Prod.mk.injEq, Except.ok.injEq] at h1 h2
          obtain ⟨-, hr1⟩ := h1
          obtain ⟨-, hr2⟩ := h2
          subst hr1
          subst hr2
          exact .closure nm dom body s1c s2c hfvC hrelC
        | cons a rest =>
          simp only [normApp] at h1 h2
          rcases ha1 : normalize cfg m1 a s1 (k2 + c) d1 (pushScope stA) with ⟨sA1, q1⟩
          rw [ha1] at h1
          cases q1 with
          | error er => simp at h1
          | ok v1 =>
            simp only at h1
            rcases hb1 : normalize cfg m1 (abstBody (.lam nm dom body)) (v1 :: s1c) (k2 + c)
                d1 sA1 with ⟨sB1, q2⟩
            rw [hb1] at h1
            cases q2 with
            | error er => simp at h1
            | ok f21 =>
              simp only at h1
              rcases ha2 : normalize cfg m2 a s2 k2 d2 (pushScope stB) with ⟨sA2, p1⟩
              rw [ha2] at h2
              cases p1 with
              | error er => simp at h2
              | ok v2 =>
                simp only at h2
                rcases hb2 : normalize cfg m2 (abstBody (.lam nm dom body)) (v2 :: s2c) k2
                    d2 sA2 with ⟨sB2, p2⟩
                rw [hb2] at h2
                cases p2 with
                | error er => simp at h2
                | ok f22 =>
                  simp only at h2
                  have hargs2 : fvLe a s2.length = true ∧ fvLe.go rest s2.length = true := by
                    simpa [fvLe.go] using hargs
                  have hv : SvRel c v1 v2 :=
                    ihn m2 a s1 s2 k2 c d1 d2 (pushScope stA) (pushScope stB) sA1 sA2 v1 v2
                      hrel hargs2.1 ha1 ha2
                  have hfvB : fvLe (abstBody (.lam nm dom body)) (s2c.length + 1) = true := by
                    have hz := hfvC
                    simp only [fvLe, Bool.and_eq_true] at hz
                    simpa [abstBody] using hz.2
                  have hf2 : SvRel c f21 f22 :=
                    ihn m2 (abstBody (.lam nm dom body)) (v1 :: s1c) (v2 :: s2c) k2 c d1 d2
                      sA1 sA2 sB1 sB2 f21 f22 (.cons _ _ _ _ hv hrelC) (by simpa using hfvB)
                      hb1 hb2
                  cases rest with
                  | nil =>
                    simp only [Prod.mk.injEq, Except.ok.injEq] at h1 h2
                    obtain ⟨-, hr1⟩ := h1
                    obtain ⟨-, hr2⟩ := h2
                    subst hr1
                    subst hr2
                    exact hf2
                  | cons b2 rest2 =>
                    exact iha m2 f21 f22 (b2 :: rest2) s1 s2 k2 c d1 d2 (popScope sB1)
                      (popScope sB2) stA2 stB2 r1 r2 hf2 hrel hargs2.2 h1 h2
    · -- normReifyArgs
      intro f2 args s1 s2 k2 c d1 d2 stA stB stA2 stB2 r1 r2 hrel hargs h1 h2
      cases f2 with
      | zero => simp [normReifyArgs] at h2
      | succ m2 =>
      cases args with
      | nil =>
        simp only [normReifyArgs, Prod.mk.injEq, Except.ok.injEq] at h1 h2
        obtain ⟨-, hr1⟩ := h1
        obtain ⟨-, hr2⟩ := h2
        subst hr1
        subst hr2
        rfl
      | cons a rest =>
        simp only [normReifyArgs] at h1 h2
        rcases ha1 : normalize cfg m1 a s1 (k2 + c) d1 stA with ⟨sA1, q1⟩
        rw [ha1] at h1
        cases q1 with
        | error er => simp at h1
        | ok v1 =>
          simp only at h1
          rcases hb1 : reify cfg m1 v1 (k2 + c) d1 sA1 with ⟨sB1, q2⟩
          rw [hb1] at h1
          cases q2 with
          | error er => simp at h1
          | ok ea1 =>
            simp only at h1
            rcases hc1 : normReifyArgs cfg m1 rest s1 (k2 + c) d1 sB1 with ⟨sC1, q3⟩
            rw [hc1] at h1
            cases q3 with
            | error er => simp at h1
            | ok es1 =>
              simp only at h1
              rcases ha2 : normalize cfg m2 a s2 k2 d2 stB with ⟨sA2, p1⟩
              rw [ha2] at h2
              cases p1 with
              | error er => simp at h2
              | ok v2 =>
                simp only at h2
                rcases hb2 : reify cfg m2 v2 k2 d2 sA2 with ⟨sB2, p2⟩
                rw [hb2] at h2
                cases p2 with
                | error er => simp at h2
                | ok ea2 =>
                  simp only at h2
                  rcases hc2 : normReifyArgs cfg m2 rest s2 k2 d2 sB2 with ⟨sC2, p3⟩
                  rw [hc2] at h2
                  cases p3 with
                  | error er => simp at h2
                  | ok es2 =>
                    simp only at h2
                    have hargs2 : fvLe a s2.length = true ∧
                        fvLe.go rest s2.length = true := by
                      simpa [fvLe.go] using hargs
                    have hv : SvRel c v1 v2 :=
                      ihn m2 a s1 s2 k2 c d1 d2 stA stB sA1 sA2 v1 v2 hrel hargs2.1 ha1 ha2
                    have hea : ea1 = ea2 :=
                      ihr m2 v1 v2 k2 c d1 d2 sA1 sA2 sB1 sB2 ea1 ea2 hv hb1 hb2
                    have hes : es1 = es2 :=
                      ihg m2 rest s1 s2 k2 c d1 d2 sB1 sB2 sC1 sC2 es1 es2 hrel hargs2.2
                        hc1 hc2
                    simp only [Prod.mk.injEq, Except.ok.injEq] at h1 h2
                    obtain ⟨-, hr1⟩ := h1
                    obtain ⟨-, hr2⟩ := h2
                    subst hr1
                    subst hr2
                    rw [hea, hes]
    · -- reify
      intro f2 v1 v2 k2 c d1 d2 stA stB stA2 stB2 e1 e2 hrel h1 h2
      cases f2 with
      | zero => simp [reify] at h2
      | succ m2 =>
      cases hrel with
      | expr e0 =>
        simp only [reify, Prod.mk.injEq, Except.ok.injEq] at h1 h2
        obtain ⟨-, hr1⟩ := h1
        obtain ⟨-, hr2⟩ := h2
        subst hr1
        subst hr2
        rfl
      | bvar j =>
        simp only [reify, Prod.mk.injEq, Except.ok.injEq] at h1 h2
        obtain ⟨-, hr1⟩ := h1
        obtain ⟨-, hr2⟩ := h2
        subst hr1
        subst hr2
        have hz : k2 + c - (j + c) - 1 = k2 - j - 1 := by omega
        rw [hz]
      | closure nm dom body s1c s2c hfvC hrelC =>
        simp only [reify] at h1 h2
        rcases ha1 : normalize cfg m1 (abstDomain (.lam nm dom body)) s1c (k2 + c) d1 stA with
          ⟨sA1, q1⟩
        rw [ha1] at h1
        cases q1 with
        | error er => simp at h1
        | ok vd1 =>
          simp only at h1
          rcases hb1 : reify cfg m1 vd1 (k2 + c) d1 sA1 with ⟨sB1, q2⟩
          rw [hb1] at h1
          cases q2 with
          | error er => simp at h1
          | ok td1 =>
            simp only at h1
            rcases hc1 : normalize cfg m1 (abstBody (.lam nm dom body))
                (.bvar (k2 + c) :: s1c) (k2 + c + 1) d1 sB1 with ⟨sC1, q3⟩
            rw [hc1] at h1
            cases q3 with
            | error er => simp at h1
            | ok vb1 =>
              simp only at h1
              rcases hd1 : reify cfg m1 vb1 (k2 + c + 1) d1 sC1 with ⟨sD1, q4⟩
              rw [hd1] at h1
              cases q4 with
              | error er => simp at h1
              | ok tb1 =>
                simp only at h1
                rcases ha2 : normalize cfg m2 (abstDomain (.lam nm dom body)) s2c k2 d2 stB with
                  ⟨sA2, p1⟩
                rw [ha2] at h2
                cases p1 with
                | error er => simp at h2
                | ok vd2 =>
                  simp only at h2
                  rcases hb2 : reify cfg m2 vd2 k2 d2 sA2 with ⟨sB2, p2⟩
                  rw [hb2] at h2
                  cases p2 with
                  | error er => simp at h2
                  | ok td2 =>
                    simp only at h2
                    rcases hc2 : normalize cfg m2 (abstBody (.lam nm dom body))
                        (.bvar k2 :: s2c) (k2 + 1) d2 sB2 with ⟨sC2, p3⟩
                    rw [hc2] at h2
                    cases p3 with
                    | error er => simp at h2
                    | ok vb2 =>
                      simp only at h2
                      rcases hd2 : reify cfg m2 vb2 (k2 + 1) d2 sC2 with ⟨sD2, p4⟩
                      rw [hd2] at h2
                      cases p4 with
                      | error er => simp at h2
                      | ok tb2 =>
                        simp only at h2
                        have hfvdb : fvLe dom s2c.length = true ∧
                            fvLe body (s2c.length + 1) = true := by
                          simpa [fvLe] using hfvC
                        have hrd : SvRel c vd1 vd2 :=
                          ihn m2 (abstDomain (.lam nm dom body)) s1c s2c k2 c d1 d2 stA stB
                            sA1 sA2 vd1 vd2 hrelC (by simpa [abstDomain] using hfvdb.1) ha1 ha2
                        have htd : td1 = td2 :=
                          ihr m2 vd1 vd2 k2 c d1 d2 sA1 sA2 sB1 sB2 td1 td2 hrd hb1 hb2
                        have hk : k2 + c + 1 = (k2 + 1) + c := by omega
                        rw [hk] at hc1 hd1
                        have hrb : SvRel c vb1 vb2 :=
                          ihn m2 (abstBody (.lam nm dom body)) (.bvar (k2 + c) :: s1c)
                            (.bvar k2 :: s2c) (k2 + 1) c d1 d2 sB1 sB2 sC1 sC2 vb1 vb2
                            (.cons _ _ _ _ (.bvar k2) hrelC)
                            (by simpa [abstBody] using hfvdb.2) hc1 hc2
                        have htb : tb1 = tb2 :=
                          ihr m2 vb1 vb2 (k2 + 1) c d1 d2 sC1 sC2 sD1 sD2 tb1 tb2 hrb hd1 hd2
                        simp only [Prod.mk.injEq, Except.ok.injEq] at h1 h2
                        obtain ⟨-, hr1⟩ := h1
                        obtain ⟨-, hr2⟩ := h2
                        subst hr1
                        subst hr2
                        rw [htd, htb]
    · -- lookup
      intro f2 s1 s2 i k1 k2b c d1 d2 stA stB stA2 stB2 r1 r2 hrel hlt h1 h2
      cases f2 with
      | zero => simp [lookup] at h2
      | succ m2 =>
      cases hrel with
      | nil => simp at hlt
      | cons v1 v2 t1 t2 hv ht =>
        cases i with
        | zero =>
          simp only [lookup, Prod.mk.injEq, Except.ok.injEq] at h1 h2
          obtain ⟨-, hr1⟩ := h1
          obtain ⟨-, hr2⟩ := h2
          subst hr1
          subst hr2
          exact hv
        | succ i2 =>
          simp only [lookup] at h1 h2
          exact ihl m2 t1 t2 i2 k1 k2b c d1 d2 stA stB stA2 stB2 r1 r2 ht
            (by simpa using Nat.lt_of_succ_lt_succ hlt) h1 h2

end KN

namespace KN

/-- The environment `idEnv` is closed: its only definition body is a closed
expression and its computation rules never fire. -/
theorem envClosed_idEnv : EnvClosed idEnv := by
  constructor
  · intro n v h
    by_cases hn : n = "id"
    · subst hn
      simp only [idEnv, if_pos, Option.some.injEq, EnvObj.defn.injEq] at h
      rw [← h.2]
      decide
    · simp [idEnv, hn] at h
  · intro pv args m h
    simp [idEnv] at h

/-- C2: δ-unfolding of constants.  Over a sharing-free instance of a closed
environment: (1) if `n` resolves to a non-opaque definition with value `v`,
then whenever `normalize(Constant(n), ctx)` and `normalize(v, empty_ctx)`
both return normal forms, those normal forms are equal — the constant's body
is normalized under an empty value stack at depth 0, and the result is
invariant under the binder offset of the ambient context; (2) if the object
is an opaque definition, and (3) if it is any other object, the result is
`Constant(n)` unchanged (below the depth cap and uninterrupted, so that the
run succeeds). -/
theorem delta_unfolding (cfg : NormCfg) (n : String)
    (hsh : ∀ x, cfg.shared x = false) (henv : EnvClosed cfg.env) :
    (∀ (v : Expr) (f1 f2 : Nat) (ctx : Context) (st st2 st2b : NormState) (e1 e2 : Expr),
      cfg.env.getObject n = some (.defn false v) →
      normalizeTop cfg f1 (.const n) ctx st = (st2, .ok e1) →
      normalizeTop cfg f2 v [] stEmpty = (st2b, .ok e2) →
      e1 = e2) ∧
    (∀ (v : Expr) (f : Nat) (ctx : Context) (st : NormState),
      cfg.env.getObject n = some (.defn true v) →
      st.interrupted = false → 1 ≤ cfg.maxDepth →
      (normalizeTop cfg (f + 1) (.const n) ctx st).2 = .ok (.const n)) ∧
    (∀ (f : Nat) (ctx : Context) (st : NormState),
      cfg.env.getObject n = some .other →
      st.interrupted = false → 1 ≤ cfg.maxDepth →
      (normalizeTop cfg (f + 1) (.const n) ctx st).2 = .ok (.const n)) := by
  refine ⟨?_, ?_, ?_⟩
  · intro v f1 f2 ctx st st2 st2b e1 e2 hobj h1 h2
    simp only [normalizeTop] at h1 h2
    rw [show setCtx [] stEmpty = stEmpty from rfl] at h2
    rw [show stEmpty.ctx = ([] : Context) from rfl] at h2
    simp only [List.length_nil] at h2
    rcases hn1 : normalize cfg f1 (Expr.const n) [] (setCtx ctx st).ctx.length 0 (setCtx ctx st)
      with ⟨sM1, q1⟩
    rw [hn1] at h1
    cases q1 with
    | error er => simp at h1
    | ok v1 =>
      simp only at h1
      rcases hn2 : normalize cfg f2 v [] 0 0 stEmpty with ⟨sM2, q2⟩
      rw [hn2] at h2
      cases q2 with
      | error er => simp at h2
      | ok v2 =>
        simp only at h2
        cases f1 with
        | zero => simp [normalize] at hn1
        | succ m1 =>
          simp only [normalize, hsh] at hn1
          split at hn1
          · simp at hn1
          · split at hn1
            · simp at hn1
            · simp only [Bool.false_eq_true, if_false] at hn1
              rw [hobj] at hn1
              simp only [Bool.false_eq_true, if_false] at hn1
              rcases hx : normalize cfg m1 v [] 0 (0 + 1) (setCtx ctx st) with ⟨sI1, w1⟩
              rw [hx] at hn1
              cases w1 with
              | error er => simp at hn1
              | ok r1 =>
                simp only [Prod.mk.injEq, Except.ok.injEq] at hn1
                obtain ⟨hsM, hrv⟩ := hn1
                rw [← hsM, ← hrv] at h1
                have hfv0 : fvLe v 0 = true := henv.1 n v hobj
                obtain ⟨hN, -, -, -, -⟩ := shiftRel cfg hsh henv m1
                have hv12 : SvRel 0 r1 v2 :=
                  hN f2 v [] [] 0 0 (0 + 1) 0 (setCtx ctx st) stEmpty sI1 sM2 r1 v2
                    .nil hfv0 hx hn2
                have hveq : r1 = v2 := svRel_zero_eq hv12
                obtain ⟨hWn, -, -⟩ := svWf_preservation cfg hsh henv m1
                have hwf1 : SvWf r1 := hWn v [] 0 (0 + 1) (setCtx ctx st) sI1 r1 .nil hfv0 hx
                have hrel : SvRel (setCtx ctx st).ctx.length r1 v2 := by
                  rw [← hveq]
                  exact svWf_rel _ hwf1
                obtain ⟨-, -, -, hR, -⟩ := shiftRel cfg hsh henv (m1 + 1)
                have h1b : reify cfg (m1 + 1) r1 (0 + (setCtx ctx st).ctx.length) 0 sI1
                    = (st2, .ok e1) := by
                  rw [Nat.zero_add]
                  exact h1
                exact hR f2 r1 v2 0 (setCtx ctx st).ctx.length 0 0 sI1 sM2 st2 st2b e1 e2
                  hrel h1b h2
  · intro v f ctx st hobj hint hmax
    have hnd : ¬ cfg.maxDepth < 0 + 1 := by omega
    simp [normalizeTop, normalize, reify, hsh, setCtx_interrupted, hint, hobj, hnd]
  · intro f ctx st hobj hint hmax
    have hnd : ¬ cfg.maxDepth < 0 + 1 := by omega
    simp [normalizeTop, normalize, reify, hsh, setCtx_interrupted, hint, hobj, hnd]

/-- Witness for `delta_unfolding`: over `idEnv`, the constant `id` unfolds to
its closed definition body and the two normalization runs return the same
normal form; an axiom-like constant normalizes to itself. -/
theorem delta_unfolding_witness :
    idEnv.getObject "id"
      = some (.defn false (.lam "y" (.type 0) (.pi "z" (.type 0) (.var 1)))) ∧
    normalizeTop cfgIdEnv 6 (.const "id") ctxFree stFree
      = (stFree, .ok (.lam "y" (.type 0) (.pi "z" (.type 0) (.var 1)))) ∧
    normalizeTop cfgIdEnv 6 (.lam "y" (.type 0) (.pi "z" (.type 0) (.var 1))) [] stEmpty
      = (stEmpty, .ok (.lam "y" (.type 0) (.pi "z" (.type 0) (.var 1)))) ∧
    (.lam "y" (.type 0) (.pi "z" (.type 0) (.var 1)) : Expr)
      = .lam "y" (.type 0) (.pi "z" (.type 0) (.var 1)) ∧
    idEnv.getObject "ax" = some .other ∧
    (normalizeTop cfgIdEnv 5 (.const "ax") ctxFree stFree).2 = .ok (.const "ax") :=
  ⟨rfl, by rfl, by rfl,
    (delta_unfolding cfgIdEnv "id" (fun _ => rfl) envClosed_idEnv).1
      (.lam "y" (.type 0) (.pi "z" (.type 0) (.var 1))) 6 6 ctxFree stFree stFree stEmpty
      (.lam "y" (.type 0) (.pi "z" (.type 0) (.var 1)))
      (.lam "y" (.type 0) (.pi "z" (.type 0) (.var 1))) rfl (by rfl) (by rfl),
    rfl,
    (delta_unfolding cfgIdEnv "ax" (fun _ => rfl) envClosed_idEnv).2.2 4 ctxFree stFree rfl rfl
      (by decide)⟩

end KN
